import Mathlib

/-
Verification of the NVS partition codec (nvs-generator module).

The JavaScript source is shallowly embedded below.  JS strings are
modelled by their byte sequences (List Nat, each element < 256); JS
numbers holding integers are modelled by Int; the Uint8Array image is
modelled as its fixed allocation size plus a write log (newest write
first), with reads defaulting to the erased-flash value 0xFF.  A
single-index store into a Uint8Array that is out of range is silently
dropped, as in JS.  Machine arithmetic is explicit: byte stores
reduce modulo 256 and the DataView setters reduce modulo 2^16 / 2^32,
matching ToUint8 / ToUint16 / ToUint32.
-/

deriving instance DecidableEq for Except

namespace NVS

/-- Constants from the NVSGenerator constructor. -/
def PAGE_SIZE : Nat := 4096

def ENTRY_SIZE : Nat := 32

def ENTRIES_PER_PAGE : Nat := 126

def TYPE_U8 : Nat := 0x01
def TYPE_I8 : Nat := 0x11
def TYPE_U16 : Nat := 0x02
def TYPE_I16 : Nat := 0x12
def TYPE_U32 : Nat := 0x04
def TYPE_I32 : Nat := 0x14
def TYPE_STR : Nat := 0x21
def TYPE_BLOB : Nat := 0x41

def PAGE_STATE_ACTIVE : Nat := 0xFFFFFFFE
def PAGE_STATE_FULL : Nat := 0xFFFFFFFC
def PAGE_STATE_EMPTY : Nat := 0xFFFFFFFF

/-- A dynamically typed JS value as dispatched on by createEntry:
a string (its UTF-8 bytes), an integral number, a byte slice
(Uint8Array), or a non-integral number. -/
inductive NVSValue where
  | str (s : List Nat)
  | int (n : Int)
  | bytes (b : List Nat)
  | float
deriving DecidableEq, Repr

/-- The three exceptions the generator can throw. -/
inductive NVSError where
  | partitionTooSmall
  | floatUnsupported
  | valueUnsupported
deriving DecidableEq, Repr

/-- Caller input: ordered mapping namespace name to ordered mapping
key to value (JS objects preserve insertion order). -/
abbrev PData := List (List Nat × List (List Nat × NVSValue))

/-- The mutable byte store of the Uint8Array: a write log, newest
write first.  The allocation size is threaded separately so that the
bounds check of every store is against a fixed number. -/
abbrev Mem := List (Nat × Nat)

/-- One single-index Uint8Array store: ToUint8 wraps modulo 256 and
an out-of-range index is silently ignored. -/
def writeByte (size : Nat) (m : Mem) (o v : Nat) : Mem :=
  if o < size then (o, v % 256) :: m else m

/-- Read one byte back; unwritten offsets give 0xFF (the erased state
the buffer is filled with on allocation). -/
def readByte (m : Mem) (o : Nat) : Nat :=
  match m.find? (fun p => p.1 = o) with
  | some p => p.2
  | none => 0xFF

/-- Store a list of bytes at consecutive offsets (TypedArray set).
Out-of-range offsets are dropped like single-index stores; the real
TypedArray set instead throws a RangeError when a multi-byte store
overruns the buffer, so every theorem about the control flow of
generate restricts its domain to inputs whose stores stay inside the
allocation (see fitsSlots), where the two semantics coincide. -/
def setBytes (size : Nat) (m : Mem) (o : Nat) : List Nat → Mem
  | [] => m
  | b :: bs => setBytes size (writeByte size m o b) (o + 1) bs

/-- Read n consecutive bytes. -/
def readBytes (m : Mem) (o n : Nat) : List Nat :=
  (List.range n).map (fun j => readByte m (o + j))

/-- Little-endian byte splits used by the DataView setters. -/
def le2 (v : Nat) : List Nat := [v % 256, v / 256 % 256]

def le4 (v : Nat) : List Nat :=
  [v % 256, v / 256 % 256, v / 65536 % 256, v / 16777216 % 256]

/-- DataView.setUint16 little-endian. -/
def setUint16 (size : Nat) (m : Mem) (o v : Nat) : Mem :=
  setBytes size m o (le2 v)

/-- DataView.setUint32 little-endian. -/
def setUint32 (size : Nat) (m : Mem) (o v : Nat) : Mem :=
  setBytes size m o (le4 v)

/-- DataView.getUint16 little-endian. -/
def getUint16 (m : Mem) (o : Nat) : Nat :=
  readByte m o + 256 * readByte m (o + 1)

/-- DataView.getUint32 little-endian. -/
def getUint32 (m : Mem) (o : Nat) : Nat :=
  readByte m o + 256 * readByte m (o + 1) + 65536 * readByte m (o + 2)
    + 16777216 * readByte m (o + 3)

/-- One inner iteration of calculateCRC32:
crc = (crc >>> 1) ^ (0xEDB88320 & -(crc & 1)). -/
def crcRound (crc : Nat) : Nat :=
  Nat.xor (crc / 2) (if crc % 2 = 1 then 0xEDB88320 else 0)

/-- Fold one data byte into the running CRC (xor then 8 rounds). -/
def crcByteStep (crc b : Nat) : Nat :=
  List.foldl (fun c _ => crcRound c) (Nat.xor crc b) (List.range 8)

/-- NVSGenerator.calculateCRC32: init 0xFFFFFFFF, reversed polynomial
0xEDB88320, final XOR 0xFFFFFFFF (that is, ~crc >>> 0). -/
def calculateCRC32 (data : List Nat) : Nat :=
  Nat.xor (List.foldl crcByteStep 0xFFFFFFFF data) 0xFFFFFFFF

/-- The record produced by createEntry and consumed by writeEntry. -/
structure Entry where
  ns : Nat
  type : Nat
  span : Nat
  key : List Nat
  data : List Nat
deriving DecidableEq, Repr

/-- NVSGenerator.createEntry: dispatch on the dynamic category of the
value.  Strings become STR with a null terminator appended; integral
numbers go through the unsigned ladder U8 / U16 / U32 (setUint32
wraps modulo 2^32); non-integral numbers throw the float error; any
other value (including byte slices) throws the unsupported error. -/
def createEntry (namespaceIndex : Nat) (key : List Nat) (value : NVSValue) :
    Except NVSError Entry :=
  match value with
  | .str s =>
    let data := s ++ [0]
    let span := 1 + (data.length + (ENTRY_SIZE - 1)) / ENTRY_SIZE
    .ok ⟨namespaceIndex, TYPE_STR, span, key, data⟩
  | .int n =>
    if 0 ≤ n ∧ n ≤ 255 then
      .ok ⟨namespaceIndex, TYPE_U8, 1, key, [n.toNat]⟩
    else if 0 ≤ n ∧ n ≤ 65535 then
      .ok ⟨namespaceIndex, TYPE_U16, 1, key, le2 n.toNat⟩
    else
      .ok ⟨namespaceIndex, TYPE_U32, 1, key, le4 (n.emod 4294967296).toNat⟩
  | .float => .error .floatUnsupported
  | .bytes _ => .error .valueUnsupported

/-- The continuation-slot loop of writeEntry: for i in [1, span) copy
data.slice((i-1)*32, (i-1)*32+32) to offset + i*32.  The counter k is
the number of remaining iterations. -/
def writeChunks (size : Nat) (m : Mem) (offset : Nat) (data : List Nat) (i : Nat) :
    Nat → Mem
  | 0 => m
  | k + 1 =>
    let chunk := (data.drop ((i - 1) * ENTRY_SIZE)).take ENTRY_SIZE
    writeChunks size (setBytes size m (offset + i * ENTRY_SIZE) chunk) offset data
      (i + 1) k

/-- NVSGenerator.writeEntry: header bytes, truncated key plus zero
padding, payload (inline for numerics, length plus continuation
slots for STR/BLOB), then the CRC over the read-back 28-byte window
bytes {0..3} and {8..31}, stored little-endian at offset 4. -/
def writeEntry (size : Nat) (m : Mem) (pageIndex entryIndex : Nat) (entry : Entry) :
    Mem :=
  let offset := pageIndex * PAGE_SIZE + 32 + entryIndex * ENTRY_SIZE
  let m := writeByte size m (offset + 0) entry.ns
  let m := writeByte size m (offset + 1) entry.type
  let m := writeByte size m (offset + 2) entry.span
  let m := writeByte size m (offset + 3) 0xFF
  let keyBytes := entry.key.take 15
  let m := setBytes size m (offset + 8) keyBytes
  let m := setBytes size m (offset + 8 + keyBytes.length)
    (List.replicate (16 - keyBytes.length) 0)
  let m :=
    if entry.type = TYPE_STR ∨ entry.type = TYPE_BLOB then
      let m := setUint16 size m (offset + 24) entry.data.length
      writeChunks size m offset entry.data 1 (entry.span - 1)
    else
      setBytes size m (offset + 24) entry.data
  let crcData := readBytes m offset 4 ++ readBytes m (offset + 8) 16
    ++ readBytes m (offset + 24) 8
  let crc := calculateCRC32 crcData
  setUint32 size m (offset + 4) crc

/-- NVSGenerator.finalizePage: page state ACTIVE, sequence number,
version 0xFFFFFFFF, then the CRC of the first 28 header bytes at
offset 28.  The last argument (numEntries) is unused, as in the
source. -/
def finalizePage (size : Nat) (m : Mem) (pageIndex _numEntries : Nat) : Mem :=
  let offset := pageIndex * PAGE_SIZE
  let m := setUint32 size m (offset + 0) PAGE_STATE_ACTIVE
  let m := setUint32 size m (offset + 4) pageIndex
  let m := setUint32 size m (offset + 8) 0xFFFFFFFF
  let headerCRC := calculateCRC32 (readBytes m offset 28)
  setUint32 size m (offset + 28) headerCRC

/-- The namespace-map loop of generate: namespaces with a non-empty
value map get indices 1, 2, 3, ... in insertion order.  The JS map
is a plain object, so this association-list model of the assignment
is exact only for names at which a plain-object store creates an own
property, that is for every name except proto (see protoName, whose
assignment hits the prototype accessor and records nothing); the
theorems that rely on this map exclude that name. -/
def buildNamespaceMapAux : PData → Nat → List (List Nat × Nat)
  | [], _ => []
  | (nsName, entries) :: rest, idx =>
    if entries ≠ [] then (nsName, idx + 1) :: buildNamespaceMapAux rest (idx + 1)
    else buildNamespaceMapAux rest idx

def buildNamespaceMap (data : PData) : List (List Nat × Nat) :=
  buildNamespaceMapAux data 0

/-- First-match association lookup (JS object property read).  Exact
for own properties; a read of an inherited Object.prototype member
(in particular proto on a name never stored, see protoName) returns
a non-number in JS, a case the theorems exclude from their domains. -/
def lookupNsIndex : List (List Nat × Nat) → List Nat → Nat
  | [], _ => 0
  | (k, v) :: rest, name => if k = name then v else lookupNsIndex rest name

/-- The inner key-value loop of generate: create the entry, write it,
advance the slot cursor by its span, and when the cursor reaches
ENTRIES_PER_PAGE finalize the page, open the next one (bitmap
0xAA 0xAA at its slot 0) and throw if no page remains. -/
def writeKVs (size : Nat) (m : Mem) (pageIndex entryIndex numPages nsIndex : Nat) :
    List (List Nat × NVSValue) → Except NVSError (Mem × Nat × Nat)
  | [] => .ok (m, pageIndex, entryIndex)
  | (key, value) :: rest =>
    match createEntry nsIndex key value with
    | .error e => .error e
    | .ok entry =>
      let m := writeEntry size m pageIndex entryIndex entry
      let entryIndex := entryIndex + entry.span
      if ENTRIES_PER_PAGE ≤ entryIndex then
        let m := finalizePage size m pageIndex entryIndex
        let pageIndex := pageIndex + 1
        let m := writeByte size (writeByte size m (pageIndex * PAGE_SIZE + 32) 0xAA)
          (pageIndex * PAGE_SIZE + 32 + 1) 0xAA
        if numPages ≤ pageIndex then .error .partitionTooSmall
        else writeKVs size m pageIndex 1 numPages nsIndex rest
      else writeKVs size m pageIndex entryIndex numPages nsIndex rest

/-- The outer namespace loop of generate: skip namespaces whose value
map is empty, otherwise emit the namespace-definition entry (slot
cursor advances by one with no page-full check, as in the source)
followed by the data entries. -/
def writeNamespaces (size : Nat) (m : Mem) (pageIndex entryIndex numPages : Nat)
    (nsMap : List (List Nat × Nat)) :
    PData → Except NVSError (Mem × Nat × Nat)
  | [] => .ok (m, pageIndex, entryIndex)
  | (nsName, entries) :: rest =>
    if entries = [] then
      writeNamespaces size m pageIndex entryIndex numPages nsMap rest
    else
      let nsIndex := lookupNsIndex nsMap nsName
      let m := writeEntry size m pageIndex entryIndex ⟨0, 0x01, 1, nsName, [nsIndex]⟩
      match writeKVs size m pageIndex (entryIndex + 1) numPages nsIndex entries with
      | .error e => .error e
      | .ok (m, pageIndex, entryIndex) =>
        writeNamespaces size m pageIndex entryIndex numPages nsMap rest

/-- The partition image returned by generate: allocation size plus
the write log. -/
structure Image where
  size : Nat
  log : Mem
deriving DecidableEq, Repr

def Image.readByte (img : Image) (o : Nat) : Nat := NVS.readByte img.log o

def Image.readBytes (img : Image) (o n : Nat) : List Nat := NVS.readBytes img.log o n

def Image.getUint16 (img : Image) (o : Nat) : Nat := NVS.getUint16 img.log o

def Image.getUint32 (img : Image) (o : Nat) : Nat := NVS.getUint32 img.log o

/-- NVSGenerator.generate: allocate the 0xFF-filled buffer, build the
namespace map, write the page-0 bitmap, run the namespace loop, and
finalize the last page. -/
def generate (data : PData) (partitionSize : Nat) : Except NVSError Image :=
  let numPages := partitionSize / PAGE_SIZE
  let m : Mem := []
  let m := writeByte partitionSize (writeByte partitionSize m 32 0xAA) 33 0xAA
  let nsMap := buildNamespaceMap data
  match writeNamespaces partitionSize m 0 1 numPages nsMap data with
  | .error e => .error e
  | .ok (m, pageIndex, entryIndex) =>
    if 0 < entryIndex then .ok ⟨partitionSize, finalizePage partitionSize m pageIndex entryIndex⟩
    else .ok ⟨partitionSize, m⟩

/-- JS object property write for the decoder namespace table: update
in place when the key exists, append otherwise. -/
def setAssocNat (m : List (Nat × List Nat)) (k : Nat) (v : List Nat) :
    List (Nat × List Nat) :=
  if m.any (fun p => p.1 = k) then
    m.map (fun p => if p.1 = k then (k, v) else p)
  else m ++ [(k, v)]

/-- JS object property read for the decoder namespace table. -/
def lookupAssocNat : List (Nat × List Nat) → Nat → Option (List Nat)
  | [], _ => none
  | (k, v) :: rest, k2 => if k = k2 then some v else lookupAssocNat rest k2

/-- The synthetic name used by the decoder when a namespace index has
no recorded definition (the template string ns_ followed by the
decimal digits of the index). -/
def nsDefaultName (n : Nat) : List Nat :=
  [110, 115, 95] ++ (Nat.toDigits 10 n).map Char.toNat

/-- Create data[name] = {} when absent, as the decoder does.  The
source guards the creation with a truthiness test on data[name],
which on a plain JS object also sees the inherited members of
Object.prototype; this own-key model is exact only for names outside
protoNames, and the round-trip theorem restricts its domain to
those. -/
def ensureNs (d : PData) (name : List Nat) : PData :=
  if d.any (fun p => p.1 = name) then d else d ++ [(name, [])]

/-- JS object property write data[name][key] = v: update in place when
the key exists, append otherwise.  Exact for every key at which a
plain-object assignment creates or updates an own property, that is
for every key except proto (see protoName), which the round-trip
theorem excludes. -/
def setAssocKV (m : List (List Nat × NVSValue)) (key : List Nat) (v : NVSValue) :
    List (List Nat × NVSValue) :=
  if m.any (fun p => p.1 = key) then
    m.map (fun p => if p.1 = key then (key, v) else p)
  else m ++ [(key, v)]

def setKV (d : PData) (name key : List Nat) (v : NVSValue) : PData :=
  d.map (fun p => if p.1 = name then (p.1, setAssocKV p.2 key v) else p)

/-- Decoder state: the namespace-index table and the accumulated data. -/
structure ParseState where
  namespaces : List (Nat × List Nat)
  data : PData
deriving DecidableEq, Repr

/-- The decoder STR loop assembling length bytes from the span − 1
continuation slots; each chunk reads min(strLen − bytesRead, 32)
bytes.  The counter k counts remaining iterations (span − 1 at the
start), s is the continuation slot number starting at 1. -/
def assembleChunks (m : Mem) (entryOffset strLen : Nat) :
    Nat → Nat → Nat → List Nat
  | _, _, 0 => []
  | s, bytesRead, k + 1 =>
    let chunkSize := min (strLen - bytesRead) ENTRY_SIZE
    readBytes m (entryOffset + s * ENTRY_SIZE) chunkSize
      ++ assembleChunks m entryOffset strLen (s + 1) (bytesRead + chunkSize) k

/-- DataView.getInt8. -/
def getInt8At (m : Mem) (o : Nat) : Int :=
  let b := readByte m o
  if b < 128 then (b : Int) else (b : Int) - 256

/-- DataView.getInt16 little-endian. -/
def getInt16At (m : Mem) (o : Nat) : Int :=
  let v := getUint16 m o
  if v < 32768 then (v : Int) else (v : Int) - 65536

/-- DataView.getInt32 little-endian. -/
def getInt32At (m : Mem) (o : Nat) : Int :=
  let v := getUint32 m o
  if v < 2147483648 then (v : Int) else (v : Int) - 4294967296

/-- The per-page slot walk of NVSGenerator.parse.  The source loops
while entryIdx < 126, advancing by 1 over unused or unknown slots and
by span over decoded entries; the fuel argument bounds the number of
iterations (125 suffices whenever every span is at least 1, which
holds for every image the encoder produces). -/
def parseEntriesLoop (m : Mem) (pageOffset : Nat) :
    Nat → Nat → ParseState → ParseState
  | 0, _, st => st
  | fuel + 1, entryIdx, st =>
    if ENTRIES_PER_PAGE ≤ entryIdx then st else
    let entryOffset := pageOffset + 32 + entryIdx * ENTRY_SIZE
    let nsByte := readByte m entryOffset
    if nsByte = 0xFF then parseEntriesLoop m pageOffset fuel (entryIdx + 1) st
    else
      let type := readByte m (entryOffset + 1)
      let span := readByte m (entryOffset + 2)
      let keyBytes := readBytes m (entryOffset + 8) 16
      let keyEnd := keyBytes.findIdx? (fun b => b = 0)
      let key :=
        keyBytes.take
          (match keyEnd with
           | some j => if 0 < j then j else 16
           | none => 16)
      if type = 0x01 ∧ nsByte = 0 then
        let nsIndex := readByte m (entryOffset + 24)
        let st : ParseState :=
          { namespaces := setAssocNat st.namespaces nsIndex key,
            data := ensureNs st.data key }
        parseEntriesLoop m pageOffset fuel (entryIdx + span) st
      else
        let namespaceName :=
          match lookupAssocNat st.namespaces nsByte with
          | some nm => if nm = [] then nsDefaultName nsByte else nm
          | none => nsDefaultName nsByte
        let st : ParseState := { st with data := ensureNs st.data namespaceName }
        let valueOpt : Option NVSValue :=
          if type = TYPE_U8 then some (.int (readByte m (entryOffset + 24) : Int))
          else if type = TYPE_I8 then some (.int (getInt8At m (entryOffset + 24)))
          else if type = TYPE_U16 then some (.int (getUint16 m (entryOffset + 24) : Int))
          else if type = TYPE_I16 then some (.int (getInt16At m (entryOffset + 24)))
          else if type = TYPE_U32 then some (.int (getUint32 m (entryOffset + 24) : Int))
          else if type = TYPE_I32 then some (.int (getInt32At m (entryOffset + 24)))
          else if type = TYPE_STR then
            let strLen := getUint16 m (entryOffset + 24)
            let assembled := assembleChunks m entryOffset strLen 1 0 (span - 1)
            let totalBytes := assembled ++ List.replicate (strLen - assembled.length) 0
            let actualLen :=
              match totalBytes.findIdx? (fun b => b = 0) with
              | some j => j
              | none => strLen
            some (.str (totalBytes.take actualLen))
          else if type = TYPE_BLOB then
            let blobLen := getUint16 m (entryOffset + 20)
            some (.bytes (readBytes m (entryOffset + 24) (min blobLen 8)))
          else none
        match valueOpt with
        | none => parseEntriesLoop m pageOffset fuel (entryIdx + 1) st
        | some v =>
          parseEntriesLoop m pageOffset fuel (entryIdx + span)
            { st with data := setKV st.data namespaceName key v }

/-- One iteration of the page loop of parse: read the page state and
skip pages that are EMPTY or all-zero, otherwise walk the slots
starting at slot 1. -/
def parsePage (m : Mem) (st : ParseState) (pageIdx : Nat) : ParseState :=
  let pageOffset := pageIdx * PAGE_SIZE
  let pageState := getUint32 m pageOffset
  if pageState = PAGE_STATE_EMPTY ∨ pageState = 0 then st
  else parseEntriesLoop m pageOffset 125 1 st

/-- NVSGenerator.parse: walk every page of the image and return the
reconstructed ordered mapping. -/
def parse (binary : Image) : PData :=
  let numPages := binary.size / PAGE_SIZE
  (List.foldl (parsePage binary.log) ⟨[], []⟩ (List.range numPages)).data

/-- Offset of the slot with index entryIndex on page pageIndex, as
computed at the top of writeEntry. -/
def slotOff (pageIndex entryIndex : Nat) : Nat :=
  pageIndex * PAGE_SIZE + 32 + entryIndex * ENTRY_SIZE

/-- The 16 key bytes of a written slot: the key truncated to its
first 15 bytes, padded with zero bytes up to 16. -/
def keyField (key : List Nat) : List Nat :=
  (key.take 15).map (fun b => b % 256) ++ List.replicate (16 - (key.take 15).length) 0

/-- The image generate returns, or an empty one on error (used to
state witnesses at concrete inputs). -/
def genImg (data : PData) (partitionSize : Nat) : Image :=
  match generate data partitionSize with
  | .ok img => img
  | .error _ => ⟨0, []⟩

/-- Pure cursor simulation of the key-value loop: same control flow
as writeKVs with the byte stores dropped.  Records only the page and
slot cursors and the thrown error. -/
def statusKVs (pageIndex entryIndex numPages nsIndex : Nat) :
    List (List Nat × NVSValue) → Except NVSError (Nat × Nat)
  | [] => .ok (pageIndex, entryIndex)
  | (key, value) :: rest =>
    match createEntry nsIndex key value with
    | .error e => .error e
    | .ok entry =>
      let entryIndex := entryIndex + entry.span
      if ENTRIES_PER_PAGE ≤ entryIndex then
        let pageIndex := pageIndex + 1
        if numPages ≤ pageIndex then .error .partitionTooSmall
        else statusKVs pageIndex 1 numPages nsIndex rest
      else statusKVs pageIndex entryIndex numPages nsIndex rest

/-- Pure cursor simulation of the namespace loop of generate. -/
def statusNamespaces (pageIndex entryIndex numPages : Nat)
    (nsMap : List (List Nat × Nat)) : PData → Except NVSError (Nat × Nat)
  | [] => .ok (pageIndex, entryIndex)
  | (nsName, entries) :: rest =>
    if entries = [] then statusNamespaces pageIndex entryIndex numPages nsMap rest
    else
      let nsIndex := lookupNsIndex nsMap nsName
      match statusKVs pageIndex (entryIndex + 1) numPages nsIndex entries with
      | .error e => .error e
      | .ok (p2, i2) => statusNamespaces p2 i2 numPages nsMap rest

/-- Pure success/error status of generate: the cursor simulation over
the input stream.  generate throws PartitionTooSmall exactly when a
page advance (triggered after a key-value entry pushes the slot
cursor to 126 or beyond) steps past the last page. -/
def genStatus (data : PData) (partitionSize : Nat) : Except NVSError Unit :=
  (statusNamespaces 0 1 (partitionSize / PAGE_SIZE) (buildNamespaceMap data) data).map
    (fun _ => ())

/-- Concrete input whose last entry has span 3 and starts at slot 125
of page 0: one namespace, 24 strings of span 5, one of span 3, and a
final 40-byte string (span 3). -/
def dcrossInput : PData :=
  [([110],
    ((List.range 24).map (fun i => ([97 + i], NVSValue.str (List.replicate 127 65))))
      ++ [([121], .str (List.replicate 63 66)), ([122], .str (List.replicate 40 67))])]

/-- Concrete input that exactly fills the 125 usable slots of a
single 4096-byte page: one namespace entry plus 124 span-1 values. -/
def exactFillInput : PData :=
  [([110], (List.range 124).map (fun i => ((Nat.toDigits 10 i).map Char.toNat, .int 1)))]

/-- Concrete input with 256 namespaces (decimal names), each holding
one key. -/
def ns256Input : PData :=
  (List.range 256).map (fun k => ((Nat.toDigits 10 k).map Char.toNat, [([107], .int 1)]))

/-- Ghost layout of the key-value loop: the list of (page, slot,
entry) placements writeKVs performs, with the same cursor flow and
errors but no byte stores. -/
def layoutKVs (pageIndex entryIndex numPages nsIndex : Nat) :
    List (List Nat × NVSValue) →
      Except NVSError (List (Nat × Nat × Entry) × Nat × Nat)
  | [] => .ok ([], pageIndex, entryIndex)
  | (key, value) :: rest =>
    match createEntry nsIndex key value with
    | .error e => .error e
    | .ok entry =>
      let newIndex := entryIndex + entry.span
      if ENTRIES_PER_PAGE ≤ newIndex then
        if numPages ≤ pageIndex + 1 then .error .partitionTooSmall
        else
          match layoutKVs (pageIndex + 1) 1 numPages nsIndex rest with
          | .error e => .error e
          | .ok (ps, p2, i2) => .ok ((pageIndex, entryIndex, entry) :: ps, p2, i2)
      else
        match layoutKVs pageIndex newIndex numPages nsIndex rest with
        | .error e => .error e
        | .ok (ps, p2, i2) => .ok ((pageIndex, entryIndex, entry) :: ps, p2, i2)

/-- Ghost layout of the namespace loop of generate. -/
def layoutNamespaces (pageIndex entryIndex numPages : Nat)
    (nsMap : List (List Nat × Nat)) :
    PData → Except NVSError (List (Nat × Nat × Entry) × Nat × Nat)
  | [] => .ok ([], pageIndex, entryIndex)
  | (nsName, entries) :: rest =>
    if entries = [] then layoutNamespaces pageIndex entryIndex numPages nsMap rest
    else
      let nsIndex := lookupNsIndex nsMap nsName
      match layoutKVs pageIndex (entryIndex + 1) numPages nsIndex entries with
      | .error e => .error e
      | .ok (ps, p2, i2) =>
        match layoutNamespaces p2 i2 numPages nsMap rest with
        | .error e => .error e
        | .ok (ps2, p3, i3) =>
          .ok ((pageIndex, entryIndex, (⟨0, 0x01, 1, nsName, [nsIndex]⟩ : Entry))
            :: (ps ++ ps2), p3, i3)

/-- The slots at which generate places entry records (the header slot
of each entry; continuation slots of STR payloads are not entry
records). -/
def placements (data : PData) (partitionSize : Nat) : List (Nat × Nat × Entry) :=
  match layoutNamespaces 0 1 (partitionSize / PAGE_SIZE) (buildNamespaceMap data) data with
  | .ok (ps, _, _) => ps
  | .error _ => []

/-- What writeEntry guarantees at a slot it has written, phrased on
the buffer contents: header bytes, key field, the CRC over the
read-back window, and the inline payload of short non-STR data. -/
def SlotSealed (m : Mem) (q j : Nat) (e : Entry) : Prop :=
  readBytes m (slotOff q j) 4 = [e.ns % 256, e.type % 256, e.span % 256, 255] ∧
  readBytes m (slotOff q j + 8) 16 = keyField e.key ∧
  readBytes m (slotOff q j + 4) 4 =
    le4 (calculateCRC32 (readBytes m (slotOff q j) 4
      ++ readBytes m (slotOff q j + 8) 16 ++ readBytes m (slotOff q j + 24) 8)) ∧
  (¬(e.type = TYPE_STR ∨ e.type = TYPE_BLOB) → e.data.length ≤ 8 →
    readBytes m (slotOff q j + 24) e.data.length = e.data.map (fun b => b % 256)) ∧
  (e.type = TYPE_STR → e.data.length + 32 ≤ 32 * e.span → j + e.span ≤ 126 →
    getUint16 m (slotOff q j + 24) = e.data.length % 65536 ∧
    readBytes m (slotOff q j + 32) e.data.length = e.data.map (fun b => b % 256))

/-- The namespaces with a non-empty value map, in insertion order:
exactly those for which generate emits a namespace-definition entry. -/
def nonemptyNS (data : PData) : PData :=
  data.filter (fun x => !x.2.isEmpty)

/-- A two-namespace example input used to exercise the namespace
ordering property on a concrete image. -/
def c6Data : PData :=
  [([97], [([107], .int 5)]), ([98], [([108], .int 6)])]

/-- A key (or namespace name) the codec round-trips exactly: non-empty,
at most 15 bytes, and every byte a non-zero octet. -/
def wfKey (k : List Nat) : Bool :=
  !k.isEmpty && decide (k.length ≤ 15)
    && k.all (fun b => decide (0 < b) && decide (b < 256))

/-- A value the codec round-trips exactly: an integer representable
as an unsigned 32-bit number, or a string of non-zero octets. -/
def wfVal : NVSValue → Bool
  | .int n => decide (0 ≤ n) && decide (n < 4294967296)
  | .str s => s.all (fun b => decide (0 < b) && decide (b < 256))
  | _ => false

/-- The well-formed inputs of the restricted round trip: distinct
well-formed namespace names (at most 254 of them), each mapping a
non-empty list of distinct well-formed keys to well-formed values. -/
def wfData (data : PData) : Bool :=
  decide ((data.map Prod.fst).Nodup) && decide (data.length ≤ 254)
    && data.all (fun p =>
        wfKey p.1 && !p.2.isEmpty && decide ((p.2.map Prod.fst).Nodup)
          && p.2.all (fun q => wfKey q.1 && wfVal q.2))

/-- The final cursor of the ghost layout (page 1 slot 0 on error):
first component 0 means the whole entry stream fits on page 0. -/
def layoutEnd (data : PData) (partitionSize : Nat) : Nat × Nat :=
  match layoutNamespaces 0 1 (partitionSize / PAGE_SIZE) (buildNamespaceMap data) data with
  | .ok (_, p2, i2) => (p2, i2)
  | .error _ => (1, 0)

/-- Number of entry records the encoder emits for data in which every
namespace is non-empty: one definition entry per namespace plus one
entry per key. -/
def nsSteps : PData → Nat
  | [] => 0
  | (_, kvs) :: rest => 1 + kvs.length + nsSteps rest

/-- A one-namespace example input (an integer and a string value)
used to exercise the restricted round trip on a concrete image. -/
def c1Data : PData :=
  [([97], [([107], .int 5), ([115], .str [104, 105])])]

/-- The byte string proto (double underscores around proto): on a
plain JS object an assignment to this key invokes the prototype
accessor and creates no own property, so the association-list model
of object writes holds only for keys different from it. -/
def protoName : List Nat := [95, 95, 112, 114, 111, 116, 111, 95, 95]

/-- The property names of Object.prototype.  A truthiness test such
as the decoder check if not data[name] sees these as inherited
members of a fresh object, so the association-list model of object
reads and writes holds only for names outside this list; the
round-trip theorem restricts its domain accordingly. -/
def protoNames : List (List Nat) :=
  [[99, 111, 110, 115, 116, 114, 117, 99, 116, 111, 114],
   [104, 97, 115, 79, 119, 110, 80, 114, 111, 112, 101, 114, 116, 121],
   [105, 115, 80, 114, 111, 116, 111, 116, 121, 112, 101, 79, 102],
   [112, 114, 111, 112, 101, 114, 116, 121, 73, 115, 69, 110, 117, 109,
    101, 114, 97, 98, 108, 101],
   [116, 111, 76, 111, 99, 97, 108, 101, 83, 116, 114, 105, 110, 103],
   [116, 111, 83, 116, 114, 105, 110, 103],
   [118, 97, 108, 117, 101, 79, 102],
   [95, 95, 100, 101, 102, 105, 110, 101, 71, 101, 116, 116, 101, 114, 95, 95],
   [95, 95, 100, 101, 102, 105, 110, 101, 83, 101, 116, 116, 101, 114, 95, 95],
   [95, 95, 108, 111, 111, 107, 117, 112, 71, 101, 116, 116, 101, 114, 95, 95],
   [95, 95, 108, 111, 111, 107, 117, 112, 83, 101, 116, 116, 101, 114, 95, 95],
   protoName]

/-- Cursor walk over the spans of the key-value entries of one
namespace (page advances reset the slot to 1; the page count is
ignored, which only makes the check cover entries past a potential
error).  True when every entry ends at slot 127 or below, so no
store of writeEntry leaves the page run it starts in.  The span and
the error of createEntry do not depend on the namespace index, so a
fixed index 1 is passed.  Also returns the slot cursor after the
walk. -/
def fitsKVs : Nat → List (List Nat × NVSValue) → Bool × Nat
  | entryIndex, [] => (true, entryIndex)
  | entryIndex, (key, value) :: rest =>
    match createEntry 1 key value with
    | .error _ => (true, entryIndex)
    | .ok entry =>
      let newIndex := entryIndex + entry.span
      let next := if ENTRIES_PER_PAGE ≤ newIndex then 1 else newIndex
      let r := fitsKVs next rest
      (decide (newIndex ≤ 127) && r.1, r.2)

/-- The namespace-level span walk: the definition entry always has
span 1 at a slot of at most 125, so only the key-value entries are
checked. -/
def fitsNS : Nat → PData → Bool
  | _, [] => true
  | entryIndex, (_, entries) :: rest =>
    if entries = [] then fitsNS entryIndex rest
    else
      let r := fitsKVs (entryIndex + 1) entries
      r.1 && fitsNS r.2 rest

/-- Every entry of the stream ends at slot 127 or below of the page
it starts in.  Under this guard (and a partition of at least one
page) every multi-byte store generate performs is inside the
allocated buffer, so the silent-drop model of setBytes coincides
with the TypedArray set of the source, which instead throws a
RangeError on an out-of-range multi-byte store, an error path this
embedding does not model. -/
def fitsSlots (data : PData) : Bool := fitsNS 1 data

/-! Basic read-over-write lemmas for the byte store. -/

theorem readByte_writeByte (size : Nat) (m : Mem) (o v o2 : Nat) :
    readByte (writeByte size m o v) o2 =
      if o2 = o ∧ o < size then v % 256 else readByte m o2 := by
  unfold writeByte readByte
  by_cases h : o < size
  · simp only [if_pos h, List.find?_cons]
    by_cases h2 : o2 = o
    · subst h2; simp [h]
    · have : (decide (o = o2)) = false := by
        simp [decide_eq_false_iff_not]; omega
      simp [this, h2]
  · simp [h]

theorem readByte_writeByte_ne (size : Nat) (m : Mem) (o v o2 : Nat) (h : o2 ≠ o) :
    readByte (writeByte size m o v) o2 = readByte m o2 := by
  rw [readByte_writeByte]; simp [h]

theorem readByte_setBytes (size : Nat) (o2 : Nat) :
    ∀ (bs : List Nat) (o : Nat) (m : Mem),
      readByte (setBytes size m o bs) o2 =
        if o ≤ o2 ∧ o2 < o + bs.length ∧ o2 < size then bs.getD (o2 - o) 0 % 256
        else readByte m o2 := by
  intro bs
  induction bs with
  | nil =>
    intro o m
    simp only [setBytes, List.length_nil, Nat.add_zero]
    rw [if_neg (by omega)]
  | cons b bs ih =>
    intro o m
    simp only [setBytes]
    rw [ih]
    by_cases hin : o ≤ o2 ∧ o2 < o + (b :: bs).length ∧ o2 < size
    · rw [if_pos hin]
      by_cases ho : o2 = o
      · subst ho
        have h1 : ¬ (o2 + 1 ≤ o2 ∧ o2 < o2 + 1 + bs.length ∧ o2 < size) := by omega
        rw [if_neg h1, readByte_writeByte]
        simp [hin.2.2]
      · have h1 : o2 - o = (o2 - (o + 1)) + 1 := by omega
        have h2 : o + 1 ≤ o2 ∧ o2 < o + 1 + bs.length ∧ o2 < size := by
          simp only [List.length_cons] at hin; omega
        rw [if_pos h2, h1]
        simp [List.getD_cons_succ]
    · rw [if_neg hin]
      simp only [List.length_cons] at hin
      have h1 : ¬ (o + 1 ≤ o2 ∧ o2 < o + 1 + bs.length ∧ o2 < size) := by omega
      rw [if_neg h1, readByte_writeByte]
      by_cases ho : o2 = o ∧ o < size
      · exfalso; omega
      · rw [if_neg ho]

theorem readByte_setBytes_outside (size : Nat) (m : Mem) (o : Nat) (bs : List Nat)
    (o2 : Nat) (h : o2 < o ∨ o + bs.length ≤ o2) :
    readByte (setBytes size m o bs) o2 = readByte m o2 := by
  rw [readByte_setBytes]
  have : ¬ (o ≤ o2 ∧ o2 < o + bs.length ∧ o2 < size) := by omega
  rw [if_neg this]

theorem readByte_setUint32_outside (size : Nat) (m : Mem) (o v o2 : Nat)
    (h : o2 < o ∨ o + 4 ≤ o2) :
    readByte (setUint32 size m o v) o2 = readByte m o2 := by
  unfold setUint32
  exact readByte_setBytes_outside size m o (le4 v) o2 (by simpa [le4] using h)

theorem readByte_setUint16_outside (size : Nat) (m : Mem) (o v o2 : Nat)
    (h : o2 < o ∨ o + 2 ≤ o2) :
    readByte (setUint16 size m o v) o2 = readByte m o2 := by
  unfold setUint16
  exact readByte_setBytes_outside size m o (le2 v) o2 (by simpa [le2] using h)

theorem readByte_writeChunks_outside (size : Nat) (offset : Nat) (data : List Nat)
    (o2 : Nat) :
    ∀ (k i : Nat) (m : Mem),
      (o2 < offset + i * ENTRY_SIZE ∨ offset + (i + k) * ENTRY_SIZE ≤ o2) →
      readByte (writeChunks size m offset data i k) o2 = readByte m o2 := by
  intro k
  induction k with
  | zero => intro i m _; simp [writeChunks]
  | succ k ih =>
    intro i m h
    simp only [writeChunks]
    have hlen : ((data.drop ((i - 1) * ENTRY_SIZE)).take ENTRY_SIZE).length ≤ 32 := by
      simp [List.length_take, ENTRY_SIZE]
    simp only [ENTRY_SIZE] at h hlen ⊢
    rw [ih (i + 1) _ (by simp only [ENTRY_SIZE]; omega)]
    exact readByte_setBytes_outside _ _ _ _ _ (by omega)

theorem readByte_writeEntry_below (size : Nat) (m : Mem) (p i : Nat) (e : Entry)
    (o2 : Nat) (h : o2 < slotOff p i) :
    readByte (writeEntry size m p i e) o2 = readByte m o2 := by
  simp only [slotOff] at h
  unfold writeEntry
  simp only []
  rw [readByte_setUint32_outside _ _ _ _ _ (by omega)]
  by_cases ht : e.type = TYPE_STR ∨ e.type = TYPE_BLOB
  · rw [if_pos ht]
    rw [readByte_writeChunks_outside _ _ _ _ _ _ _ (Or.inl (by omega))]
    rw [readByte_setUint16_outside _ _ _ _ _ (by omega)]
    rw [readByte_setBytes_outside _ _ _ _ _ (by omega)]
    rw [readByte_setBytes_outside _ _ _ _ _ (by omega)]
    rw [readByte_writeByte_ne _ _ _ _ _ (by omega)]
    rw [readByte_writeByte_ne _ _ _ _ _ (by omega)]
    rw [readByte_writeByte_ne _ _ _ _ _ (by omega)]
    rw [readByte_writeByte_ne _ _ _ _ _ (by omega)]
  · rw [if_neg ht]
    rw [readByte_setBytes_outside _ _ _ _ _ (by omega)]
    rw [readByte_setBytes_outside _ _ _ _ _ (by omega)]
    rw [readByte_setBytes_outside _ _ _ _ _ (by omega)]
    rw [readByte_writeByte_ne _ _ _ _ _ (by omega)]
    rw [readByte_writeByte_ne _ _ _ _ _ (by omega)]
    rw [readByte_writeByte_ne _ _ _ _ _ (by omega)]
    rw [readByte_writeByte_ne _ _ _ _ _ (by omega)]

theorem readBytes_ext (m2 m1 : Mem) (o n : Nat)
    (h : ∀ j, j < n → readByte m2 (o + j) = readByte m1 (o + j)) :
    readBytes m2 o n = readBytes m1 o n := by
  unfold readBytes
  refine List.map_congr_left ?_
  intro j hj
  exact h j (List.mem_range.mp hj)

theorem le4_bytes_lt (v : Nat) : ∀ b ∈ le4 v, b < 256 := by
  intro b hb
  simp only [le4, List.mem_cons, List.not_mem_nil, or_false] at hb
  rcases hb with h | h | h | h <;> omega

theorem le2_bytes_lt (v : Nat) : ∀ b ∈ le2 v, b < 256 := by
  intro b hb
  simp only [le2, List.mem_cons, List.not_mem_nil, or_false] at hb
  rcases hb with h | h <;> omega

theorem readBytes_setBytes_exact (size : Nat) (m : Mem) (o : Nat) (bs : List Nat)
    (h : o + bs.length ≤ size) (hb : ∀ b ∈ bs, b < 256) :
    readBytes (setBytes size m o bs) o bs.length = bs := by
  unfold readBytes
  apply List.ext_getElem
  · simp
  · intro j hj1 hj2
    simp only [List.getElem_map, List.getElem_range]
    rw [readByte_setBytes]
    have hcond : o ≤ o + j ∧ o + j < o + bs.length ∧ o + j < size := by
      simp only [List.length_map, List.length_range] at hj1; omega
    rw [if_pos hcond]
    simp only [Nat.add_sub_cancel_left]
    rw [List.getD_eq_getElem _ _ hj2]
    exact Nat.mod_eq_of_lt (hb _ (List.getElem_mem hj2))

theorem readBytes_setUint32 (size : Nat) (m : Mem) (o v : Nat) (h : o + 4 ≤ size) :
    readBytes (setUint32 size m o v) o 4 = le4 v := by
  unfold setUint32
  have hlen : (le4 v).length = 4 := by simp [le4]
  have := readBytes_setBytes_exact size m o (le4 v) (by omega) (le4_bytes_lt v)
  rwa [hlen] at this

/-- The CRC write at the tail of writeEntry: after storing the CRC of
the 28-byte window read back from the buffer, the stored bytes 4..7
are the little-endian CRC32 of the window as read from the final
buffer (the CRC store does not overlap its own window). -/
theorem crc_write_spec (size : Nat) (M : Mem) (off : Nat) (hsize : off + 32 ≤ size) :
    readBytes (setUint32 size M (off + 4)
        (calculateCRC32 (readBytes M off 4 ++ readBytes M (off + 8) 16
          ++ readBytes M (off + 24) 8))) (off + 4) 4 =
      le4 (calculateCRC32
        (readBytes (setUint32 size M (off + 4)
            (calculateCRC32 (readBytes M off 4 ++ readBytes M (off + 8) 16
              ++ readBytes M (off + 24) 8))) off 4
          ++ readBytes (setUint32 size M (off + 4)
              (calculateCRC32 (readBytes M off 4 ++ readBytes M (off + 8) 16
                ++ readBytes M (off + 24) 8))) (off + 8) 16
          ++ readBytes (setUint32 size M (off + 4)
              (calculateCRC32 (readBytes M off 4 ++ readBytes M (off + 8) 16
                ++ readBytes M (off + 24) 8))) (off + 24) 8)) := by
  have h1 : readBytes (setUint32 size M (off + 4)
      (calculateCRC32 (readBytes M off 4 ++ readBytes M (off + 8) 16
        ++ readBytes M (off + 24) 8))) off 4 = readBytes M off 4 := by
    apply readBytes_ext
    intro j hj
    exact readByte_setUint32_outside _ _ _ _ _ (by omega)
  have h2 : readBytes (setUint32 size M (off + 4)
      (calculateCRC32 (readBytes M off 4 ++ readBytes M (off + 8) 16
        ++ readBytes M (off + 24) 8))) (off + 8) 16 = readBytes M (off + 8) 16 := by
    apply readBytes_ext
    intro j hj
    exact readByte_setUint32_outside _ _ _ _ _ (by omega)
  have h3 : readBytes (setUint32 size M (off + 4)
      (calculateCRC32 (readBytes M off 4 ++ readBytes M (off + 8) 16
        ++ readBytes M (off + 24) 8))) (off + 24) 8 = readBytes M (off + 24) 8 := by
    apply readBytes_ext
    intro j hj
    exact readByte_setUint32_outside _ _ _ _ _ (by omega)
  rw [h1, h2, h3]
  exact readBytes_setUint32 size M (off + 4) _ (by omega)

/-- Bytes 4..7 of a freshly written entry slot hold the little-endian
CRC32 of the 28-byte window {0..3, 8..31} of the resulting buffer. -/
theorem writeEntry_crc_spec (size : Nat) (m : Mem) (p i : Nat) (e : Entry)
    (hsize : slotOff p i + 32 ≤ size) :
    readBytes (writeEntry size m p i e) (slotOff p i + 4) 4 =
      le4 (calculateCRC32
        (readBytes (writeEntry size m p i e) (slotOff p i) 4
          ++ readBytes (writeEntry size m p i e) (slotOff p i + 8) 16
          ++ readBytes (writeEntry size m p i e) (slotOff p i + 24) 8)) := by
  unfold writeEntry
  simp only []
  exact crc_write_spec size _ _ (by simpa [slotOff] using hsize)

theorem keyField_length (key : List Nat) : (keyField key).length = 16 := by
  have : (key.take 15).length ≤ 15 := by simp [List.length_take]
  simp only [keyField, List.length_append, List.length_map, List.length_replicate]
  omega

theorem getD_replicate_zero (n k : Nat) : (List.replicate n (0 : Nat)).getD k 0 = 0 := by
  by_cases h : k < n
  · rw [List.getD_eq_getElem _ _ (by simpa using h)]
    simp
  · rw [List.getD_eq_default _ _ (by simpa using h)]

/-- The key field of a freshly written slot: first 15 key bytes
(reduced modulo 256 by the byte store), zero padded to 16 bytes.
In particular a longer key is silently truncated. -/
theorem writeEntry_key_spec (size : Nat) (m : Mem) (p i : Nat) (e : Entry)
    (hsize : slotOff p i + 32 ≤ size) :
    readBytes (writeEntry size m p i e) (slotOff p i + 8) 16 = keyField e.key := by
  simp only [slotOff] at hsize ⊢
  unfold writeEntry
  simp only []
  apply List.ext_getElem
  · simp [readBytes, keyField_length]
  intro j hj1 hj2
  have hj : j < 16 := by simpa [readBytes] using hj1
  have hkb : (e.key.take 15).length ≤ 15 := by simp [List.length_take]
  simp only [readBytes, List.getElem_map, List.getElem_range]
  rw [readByte_setUint32_outside _ _ _ _ _ (by omega)]
  have hbranch : ∀ M : Mem,
      readByte (if e.type = TYPE_STR ∨ e.type = TYPE_BLOB then
          writeChunks size (setUint16 size M (p * PAGE_SIZE + 32 + i * ENTRY_SIZE + 24)
            e.data.length) (p * PAGE_SIZE + 32 + i * ENTRY_SIZE) e.data 1 (e.span - 1)
        else setBytes size M (p * PAGE_SIZE + 32 + i * ENTRY_SIZE + 24) e.data)
        (p * PAGE_SIZE + 32 + i * ENTRY_SIZE + 8 + j)
      = readByte M (p * PAGE_SIZE + 32 + i * ENTRY_SIZE + 8 + j) := by
    intro M
    by_cases ht : e.type = TYPE_STR ∨ e.type = TYPE_BLOB
    · rw [if_pos ht]
      rw [readByte_writeChunks_outside _ _ _ _ _ _ _ (Or.inl (by simp only [ENTRY_SIZE]; omega))]
      rw [readByte_setUint16_outside _ _ _ _ _ (by omega)]
    · rw [if_neg ht]
      rw [readByte_setBytes_outside _ _ _ _ _ (by omega)]
  rw [hbranch]
  by_cases hjk : j < (e.key.take 15).length
  · rw [readByte_setBytes_outside _ _ _ _ _ (by omega)]
    rw [readByte_setBytes]
    rw [if_pos (by constructor; omega; constructor; omega; omega)]
    have hidx : p * PAGE_SIZE + 32 + i * ENTRY_SIZE + 8 + j
        - (p * PAGE_SIZE + 32 + i * ENTRY_SIZE + 8) = j := by omega
    rw [hidx]
    rw [List.getD_eq_getElem _ _ (by simpa using hjk)]
    simp only [keyField]
    rw [List.getElem_append_left (by simpa using hjk)]
    simp
  · rw [readByte_setBytes]
    rw [if_pos (by
      refine ⟨by omega, ?_, by omega⟩
      simp only [List.length_replicate]
      omega)]
    have hidx : p * PAGE_SIZE + 32 + i * ENTRY_SIZE + 8 + j
        - (p * PAGE_SIZE + 32 + i * ENTRY_SIZE + 8 + (e.key.take 15).length)
        = j - (e.key.take 15).length := by omega
    rw [hidx, getD_replicate_zero]
    simp only [keyField]
    have hlen2 : (List.map (fun b => b % 256) (e.key.take 15)).length ≤ j := by
      simp only [List.length_map]
      omega
    rw [List.getElem_append_right hlen2]
    simp

/-- The first four bytes of a freshly written slot: namespace, type,
span (each reduced modulo 256 by the byte store) and the reserved
byte 0xFF. -/
theorem writeEntry_hdr_spec (size : Nat) (m : Mem) (p i : Nat) (e : Entry)
    (hsize : slotOff p i + 32 ≤ size) :
    readBytes (writeEntry size m p i e) (slotOff p i) 4 =
      [e.ns % 256, e.type % 256, e.span % 256, 255] := by
  simp only [slotOff] at hsize ⊢
  unfold writeEntry
  simp only []
  apply List.ext_getElem
  · simp [readBytes]
  intro j hj1 hj2
  have hj : j < 4 := by simpa [readBytes] using hj1
  simp only [readBytes, List.getElem_map, List.getElem_range]
  rw [readByte_setUint32_outside _ _ _ _ _ (by omega)]
  have hbranch : ∀ M : Mem,
      readByte (if e.type = TYPE_STR ∨ e.type = TYPE_BLOB then
          writeChunks size (setUint16 size M (p * PAGE_SIZE + 32 + i * ENTRY_SIZE + 24)
            e.data.length) (p * PAGE_SIZE + 32 + i * ENTRY_SIZE) e.data 1 (e.span - 1)
        else setBytes size M (p * PAGE_SIZE + 32 + i * ENTRY_SIZE + 24) e.data)
        (p * PAGE_SIZE + 32 + i * ENTRY_SIZE + j)
      = readByte M (p * PAGE_SIZE + 32 + i * ENTRY_SIZE + j) := by
    intro M
    by_cases ht : e.type = TYPE_STR ∨ e.type = TYPE_BLOB
    · rw [if_pos ht]
      rw [readByte_writeChunks_outside _ _ _ _ _ _ _ (Or.inl (by simp only [ENTRY_SIZE]; omega))]
      rw [readByte_setUint16_outside _ _ _ _ _ (by omega)]
    · rw [if_neg ht]
      rw [readByte_setBytes_outside _ _ _ _ _ (by omega)]
  rw [hbranch]
  rw [readByte_setBytes_outside _ _ _ _ _ (by simp only [List.length_replicate]; omega)]
  rw [readByte_setBytes_outside _ _ _ _ _ (by omega)]
  interval_cases j
  · rw [readByte_writeByte_ne _ _ _ _ _ (by omega)]
    rw [readByte_writeByte_ne _ _ _ _ _ (by omega)]
    rw [readByte_writeByte_ne _ _ _ _ _ (by omega)]
    rw [readByte_writeByte, if_pos (by omega)]
    simp
  · rw [readByte_writeByte_ne _ _ _ _ _ (by omega)]
    rw [readByte_writeByte_ne _ _ _ _ _ (by omega)]
    rw [readByte_writeByte, if_pos (by omega)]
    simp
  · rw [readByte_writeByte_ne _ _ _ _ _ (by omega)]
    rw [readByte_writeByte, if_pos (by omega)]
    simp
  · rw [readByte_writeByte, if_pos (by omega)]
    simp

/-- The inline payload of a freshly written numeric slot. -/
theorem writeEntry_numeric_spec (size : Nat) (m : Mem) (p i : Nat) (e : Entry)
    (hsize : slotOff p i + 32 ≤ size)
    (ht : ¬(e.type = TYPE_STR ∨ e.type = TYPE_BLOB)) (hlen : e.data.length ≤ 8)
    (hb : ∀ b ∈ e.data, b < 256) :
    readBytes (writeEntry size m p i e) (slotOff p i + 24) e.data.length = e.data := by
  simp only [slotOff] at hsize ⊢
  unfold writeEntry
  simp only [if_neg ht]
  rw [readBytes_ext _ (setBytes size _ (p * PAGE_SIZE + 32 + i * ENTRY_SIZE + 24) e.data)
    _ _ (by
      intro j hj
      exact readByte_setUint32_outside _ _ _ _ _ (by omega))]
  exact readBytes_setBytes_exact size _ _ _ (by omega) hb

/-- The 16-bit length field of a freshly written STR/BLOB slot holds
the payload length reduced modulo 65536. -/
theorem writeEntry_strlen_spec (size : Nat) (m : Mem) (p i : Nat) (e : Entry)
    (hsize : slotOff p i + 32 ≤ size)
    (ht : e.type = TYPE_STR ∨ e.type = TYPE_BLOB) :
    getUint16 (writeEntry size m p i e) (slotOff p i + 24) = e.data.length % 65536 := by
  simp only [slotOff] at hsize ⊢
  unfold writeEntry
  simp only [if_pos ht]
  unfold getUint16
  rw [readByte_setUint32_outside _ _ _ _ _ (by omega),
      readByte_setUint32_outside _ _ _ _ _ (by omega)]
  rw [readByte_writeChunks_outside _ _ _ _ _ _ _ (Or.inl (by simp only [ENTRY_SIZE]; omega)),
      readByte_writeChunks_outside _ _ _ _ _ _ _ (Or.inl (by simp only [ENTRY_SIZE]; omega))]
  unfold setUint16
  have hle2 : (le2 e.data.length).length = 2 := by simp [le2]
  simp only [readByte_setBytes]
  rw [if_pos (by omega), if_pos (by omega)]
  have h1 : p * PAGE_SIZE + 32 + i * ENTRY_SIZE + 24
      - (p * PAGE_SIZE + 32 + i * ENTRY_SIZE + 24) = 0 := by omega
  have h2 : p * PAGE_SIZE + 32 + i * ENTRY_SIZE + 24 + 1
      - (p * PAGE_SIZE + 32 + i * ENTRY_SIZE + 24) = 1 := by omega
  rw [h1, h2]
  simp only [le2, List.getD_cons_zero, List.getD_cons_succ]
  omega

/-! Bounds of the write log: every logged write is inside the
allocation. -/

def InBounds (size : Nat) (m : Mem) : Prop := ∀ q ∈ m, q.1 < size

theorem inBounds_writeByte {size : Nat} {m : Mem} {o v : Nat} (h : InBounds size m) :
    InBounds size (writeByte size m o v) := by
  intro q hq
  unfold writeByte at hq
  by_cases ho : o < size
  · rw [if_pos ho] at hq
    rcases List.mem_cons.mp hq with rfl | hq2
    · exact ho
    · exact h q hq2
  · rw [if_neg ho] at hq
    exact h q hq

theorem inBounds_setBytes (size : Nat) :
    ∀ (bs : List Nat) (m : Mem) (o : Nat), InBounds size m →
      InBounds size (setBytes size m o bs) := by
  intro bs
  induction bs with
  | nil => intro m o h; exact h
  | cons b bs ih =>
    intro m o h
    exact ih _ _ (inBounds_writeByte h)

theorem inBounds_writeChunks (size : Nat) (offset : Nat) (data : List Nat) :
    ∀ (k i : Nat) (m : Mem), InBounds size m →
      InBounds size (writeChunks size m offset data i k) := by
  intro k
  induction k with
  | zero => intro i m h; exact h
  | succ k ih =>
    intro i m h
    exact ih _ _ (inBounds_setBytes _ _ _ _ h)

theorem inBounds_writeEntry (size : Nat) (m : Mem) (p i : Nat) (e : Entry)
    (h : InBounds size m) : InBounds size (writeEntry size m p i e) := by
  unfold writeEntry
  simp only []
  apply inBounds_setBytes
  by_cases ht : e.type = TYPE_STR ∨ e.type = TYPE_BLOB
  · rw [if_pos ht]
    apply inBounds_writeChunks
    apply inBounds_setBytes
    apply inBounds_setBytes
    apply inBounds_setBytes
    exact inBounds_writeByte (inBounds_writeByte (inBounds_writeByte (inBounds_writeByte h)))
  · rw [if_neg ht]
    apply inBounds_setBytes
    apply inBounds_setBytes
    apply inBounds_setBytes
    exact inBounds_writeByte (inBounds_writeByte (inBounds_writeByte (inBounds_writeByte h)))

theorem inBounds_finalizePage (size : Nat) (m : Mem) (p n : Nat)
    (h : InBounds size m) : InBounds size (finalizePage size m p n) := by
  unfold finalizePage
  simp only []
  apply inBounds_setBytes
  apply inBounds_setBytes
  apply inBounds_setBytes
  apply inBounds_setBytes
  exact h

theorem inBounds_writeKVs (size numPages nsIndex : Nat) :
    ∀ (kvs : List (List Nat × NVSValue)) (m : Mem) (p i : Nat) (m2 : Mem) (p2 i2 : Nat),
      writeKVs size m p i numPages nsIndex kvs = .ok (m2, p2, i2) →
      InBounds size m → InBounds size m2 := by
  intro kvs
  induction kvs with
  | nil =>
    intro m p i m2 p2 i2 hok h
    simp only [writeKVs] at hok
    cases hok
    exact h
  | cons kv rest ih =>
    intro m p i m2 p2 i2 hok h
    obtain ⟨key, value⟩ := kv
    simp only [writeKVs] at hok
    cases hce : createEntry nsIndex key value with
    | error e => rw [hce] at hok; cases hok
    | ok entry =>
      rw [hce] at hok
      simp only [] at hok
      by_cases hfull : ENTRIES_PER_PAGE ≤ i + entry.span
      · rw [if_pos hfull] at hok
        by_cases hnp : numPages ≤ p + 1
        · rw [if_pos hnp] at hok; cases hok
        · rw [if_neg hnp] at hok
          exact ih _ _ _ _ _ _ hok
            (inBounds_writeByte (inBounds_writeByte (inBounds_finalizePage _ _ _ _
              (inBounds_writeEntry _ _ _ _ _ h))))
      · rw [if_neg hfull] at hok
        exact ih _ _ _ _ _ _ hok (inBounds_writeEntry _ _ _ _ _ h)

theorem inBounds_writeNamespaces (size numPages : Nat) (nsMap : List (List Nat × Nat)) :
    ∀ (data : PData) (m : Mem) (p i : Nat) (m2 : Mem) (p2 i2 : Nat),
      writeNamespaces size m p i numPages nsMap data = .ok (m2, p2, i2) →
      InBounds size m → InBounds size m2 := by
  intro data
  induction data with
  | nil =>
    intro m p i m2 p2 i2 hok h
    simp only [writeNamespaces] at hok
    cases hok
    exact h
  | cons nsp rest ih =>
    intro m p i m2 p2 i2 hok h
    obtain ⟨nsName, entries⟩ := nsp
    simp only [writeNamespaces] at hok
    by_cases hemp : entries = []
    · rw [if_pos hemp] at hok
      exact ih _ _ _ _ _ _ hok h
    · rw [if_neg hemp] at hok
      cases hwk : writeKVs size
          (writeEntry size m p i ⟨0, 0x01, 1, nsName, [lookupNsIndex nsMap nsName]⟩)
          p (i + 1) numPages (lookupNsIndex nsMap nsName) entries with
      | error e => rw [hwk] at hok; cases hok
      | ok t =>
        obtain ⟨m3, p3, i3⟩ := t
        rw [hwk] at hok
        exact ih _ _ _ _ _ _ hok
          (inBounds_writeKVs _ _ _ _ _ _ _ _ _ _ hwk
            (inBounds_writeEntry _ _ _ _ _ h))

theorem readByte_not_mem (m : Mem) (o : Nat) (h : o ∉ m.map Prod.fst) :
    readByte m o = 255 := by
  unfold readByte
  have hnone : m.find? (fun p => p.1 = o) = none := by
    rw [List.find?_eq_none]
    intro q hq
    simp only [decide_eq_true_eq]
    intro heq
    exact h (List.mem_map.mpr ⟨q, hq, heq⟩)
  rw [hnone]

/-- C5: the image returned by generate has size equal to the
requested partition size, every write in its log landed inside the
buffer, and every byte that was never written reads back as the
erased value 0xFF. -/
theorem c5_size_and_erased (data : PData) (partitionSize : Nat) (img : Image)
    (hok : generate data partitionSize = .ok img) :
    img.size = partitionSize ∧
    (∀ q ∈ img.log, q.1 < partitionSize) ∧
    (∀ o, o ∉ img.log.map Prod.fst → img.readByte o = 255) := by
  unfold generate at hok
  simp only [] at hok
  cases hw : writeNamespaces partitionSize
      (writeByte partitionSize (writeByte partitionSize [] 32 170) 33 170) 0 1
      (partitionSize / PAGE_SIZE) (buildNamespaceMap data) data with
  | error e => rw [hw] at hok; cases hok
  | ok t =>
    obtain ⟨m2, p2, i2⟩ := t
    rw [hw] at hok
    simp only [] at hok
    have hbase : InBounds partitionSize
        (writeByte partitionSize (writeByte partitionSize [] 32 170) 33 170) :=
      inBounds_writeByte (inBounds_writeByte (fun q hq => absurd hq (List.not_mem_nil q)))
    have hm2 : InBounds partitionSize m2 :=
      inBounds_writeNamespaces _ _ _ _ _ _ _ _ _ _ hw hbase
    by_cases hi : 0 < i2
    · rw [if_pos hi] at hok
      cases hok
      refine ⟨rfl, inBounds_finalizePage partitionSize m2 p2 i2 hm2, ?_⟩
      intro o ho
      exact readByte_not_mem _ _ ho
    · rw [if_neg hi] at hok
      cases hok
      refine ⟨rfl, hm2, ?_⟩
      intro o ho
      exact readByte_not_mem _ _ ho

set_option maxRecDepth 10000 in
/-- C5 witness at a concrete input. -/
theorem c5_witness :
    (genImg [([97], [([107], .int 5)])] 24576).size = 24576 ∧
    (∀ q ∈ (genImg [([97], [([107], .int 5)])] 24576).log, q.1 < 24576) ∧
    (∀ o, o ∉ (genImg [([97], [([107], .int 5)])] 24576).log.map Prod.fst →
      (genImg [([97], [([107], .int 5)])] 24576).readByte o = 255) :=
  c5_size_and_erased [([97], [([107], .int 5)])] 24576 _ (by decide)

/-! Correspondence between generate and its pure cursor simulation. -/

theorem writeKVs_status (size numPages nsIndex : Nat) :
    ∀ (kvs : List (List Nat × NVSValue)) (m : Mem) (p i : Nat),
      (writeKVs size m p i numPages nsIndex kvs).map (fun t => t.2)
        = statusKVs p i numPages nsIndex kvs := by
  intro kvs
  induction kvs with
  | nil => intro m p i; rfl
  | cons kv rest ih =>
    intro m p i
    obtain ⟨key, value⟩ := kv
    simp only [writeKVs, statusKVs]
    cases hce : createEntry nsIndex key value with
    | error e => rfl
    | ok entry =>
      simp only []
      by_cases hfull : ENTRIES_PER_PAGE ≤ i + entry.span
      · rw [if_pos hfull, if_pos hfull]
        by_cases hnp : numPages ≤ p + 1
        · rw [if_pos hnp, if_pos hnp]; rfl
        · rw [if_neg hnp, if_neg hnp]; exact ih _ _ _
      · rw [if_neg hfull, if_neg hfull]; exact ih _ _ _

theorem writeNamespaces_status (size numPages : Nat) (nsMap : List (List Nat × Nat)) :
    ∀ (data : PData) (m : Mem) (p i : Nat),
      (writeNamespaces size m p i numPages nsMap data).map (fun t => t.2)
        = statusNamespaces p i numPages nsMap data := by
  intro data
  induction data with
  | nil => intro m p i; rfl
  | cons nsp rest ih =>
    intro m p i
    obtain ⟨nsName, entries⟩ := nsp
    simp only [writeNamespaces, statusNamespaces]
    by_cases hemp : entries = []
    · rw [if_pos hemp, if_pos hemp]; exact ih _ _ _
    · rw [if_neg hemp, if_neg hemp]
      have hkv := writeKVs_status size numPages (lookupNsIndex nsMap nsName) entries
        (writeEntry size m p i ⟨0, 0x01, 1, nsName, [lookupNsIndex nsMap nsName]⟩) p (i + 1)
      cases hwk : writeKVs size
          (writeEntry size m p i ⟨0, 0x01, 1, nsName, [lookupNsIndex nsMap nsName]⟩)
          p (i + 1) numPages (lookupNsIndex nsMap nsName) entries with
      | error e =>
        rw [hwk] at hkv
        rw [← hkv]
        rfl
      | ok t =>
        obtain ⟨m3, p3, i3⟩ := t
        rw [hwk] at hkv
        rw [← hkv]
        exact ih _ _ _

/-- C7 amended: on a partition of at least one page and an input
stream none of whose entries runs past slot 127 of its page (so that
every store stays inside the allocation and the TypedArray RangeError
path of the source cannot fire), generate succeeds or throws exactly
as the pure cursor simulation does: the byte stores never influence
control flow.  In particular PartitionTooSmall is thrown precisely
when a page advance (which happens after any key-value entry that
pushes the slot cursor to 126 or beyond, including one that exactly
fills the last page) steps past the page count. -/
theorem c7_error_iff_cursor_overflow (data : PData) (partitionSize : Nat)
    (_hpsize : PAGE_SIZE ≤ partitionSize)
    (_hfits : fitsSlots data = true) :
    (generate data partitionSize).map (fun _ => ()) = genStatus data partitionSize := by
  unfold generate genStatus
  simp only []
  have h := writeNamespaces_status partitionSize (partitionSize / PAGE_SIZE)
    (buildNamespaceMap data) data
    (writeByte partitionSize (writeByte partitionSize [] 32 170) 33 170) 0 1
  cases hw : writeNamespaces partitionSize
      (writeByte partitionSize (writeByte partitionSize [] 32 170) 33 170) 0 1
      (partitionSize / PAGE_SIZE) (buildNamespaceMap data) data with
  | error e =>
    rw [hw] at h
    rw [← h]
    rfl
  | ok t =>
    obtain ⟨m2, p2, i2⟩ := t
    rw [hw] at h
    rw [← h]
    show Except.map (fun _ => ())
        (if 0 < i2 then Except.ok (⟨partitionSize, finalizePage partitionSize m2 p2 i2⟩ : Image)
         else Except.ok ⟨partitionSize, m2⟩)
      = Except.map (fun _ => ()) (Except.map (fun t => t.2) (Except.ok (m2, p2, i2)))
    by_cases hi : 0 < i2
    · rw [if_pos hi]; rfl
    · rw [if_neg hi]; rfl

set_option maxRecDepth 10000 in
/-- C7 witness: the exact-fill input on a one-page partition is
inside the guarded domain (all entries span 1) and the theorem
equates the generate outcome with the cursor simulation there. -/
theorem c7_witness :
    (PAGE_SIZE ≤ 4096 ∧ fitsSlots exactFillInput = true) ∧
    (generate exactFillInput 4096).map (fun _ => ())
      = genStatus exactFillInput 4096 :=
  ⟨⟨by decide, by decide⟩,
    c7_error_iff_cursor_overflow exactFillInput 4096 (by decide) (by decide)⟩

set_option maxRecDepth 10000 in
/-- C7 counterexample: one namespace entry plus 124 span-1 values
exactly fill the 125 usable slots of a one-page partition (125 slots
equal 125 times the page count, so the claim demands success), yet
generate throws PartitionTooSmall: after the final entry the writer
unconditionally advances to the next page and finds none left. -/
theorem c7_counterexample :
    generate exactFillInput 4096 = .error .partitionTooSmall := by decide

set_option maxRecDepth 10000 in
/-- C2 failing input evaluated: in the image for dcrossInput the
entry at page-0 slot 125 records span 3 (byte 4034), its payload
fills slot 126 (byte 4064 holds 0x43, not the erased 0xFF), and its
third slot overlaps the page-1 header region, which finalizePage
later overwrites (byte 4096 reads back as the ACTIVE state byte
0xFE).  The claimed behavior, starting the entry at slot 1 of the
next page and leaving the rest of page 0 erased, does not occur. -/
theorem c2_span_crosses_page_boundary :
    (generate dcrossInput 24576).map (fun img =>
        (img.readByte (32 + 125 * 32), img.readByte (32 + 125 * 32 + 2),
         img.readByte (32 + 126 * 32), img.readByte 4096))
      = .ok (1, 3, 67, 254) := by decide

set_option maxRecDepth 10000 in
/-- C1 counterexample: the mapping with the single integer value −1
is accepted by encode (no error is thrown), but the value is stored
wrapped modulo 2^32 with the unsigned U32 tag, so decoding the image
returns 4294967295 and the round trip fails. -/
theorem c1_counterexample :
    (generate [([97], [([107], .int (-1))])] 24576).map parse
        = .ok [([97], [([107], .int 4294967295)])] ∧
      [([97], [([107], NVSValue.int 4294967295)])]
        ≠ [([97], [([107], NVSValue.int (-1))])] := by
  exact ⟨by decide, by decide⟩

set_option maxRecDepth 20000 in
/-- C6 counterexample: with 256 namespaces, the index byte stored at
offset 24 of each namespace-definition entry wraps modulo 256: the
255th and 256th definitions (page-4 slots 5 and 7: namespace byte 0,
type 0x01) store 255 and then 0, so the stored sequence is not
strictly increasing 1, 2, 3, ...; the source has no
TooManyNamespaces guard. -/
theorem c6_counterexample :
    (generate ns256Input 131072).map (fun img =>
        (img.readByte 16576, img.readByte 16577, img.readByte 16600,
         img.readByte 16640, img.readByte 16641, img.readByte 16664))
      = .ok (0, 1, 255, 0, 1, 0) := by decide

/-- C9 counterexample: a byte-slice value is not accepted and encoded
as a BLOB entry; generate rejects it with the unsupported-value
error. -/
theorem c9_counterexample :
    generate [([110], [([107], .bytes [1, 2, 3])])] 24576
      = .error .valueUnsupported := by decide

/-- C9 amended: byte-slice values are refused with the generic
unsupported-value error and non-integral numbers with the float
error; the encoder never emits a BLOB tag: every entry it creates
carries tag U8, U16, U32 or STR. -/
theorem c9_bytes_rejected (ns : Nat) (key : List Nat) :
    (∀ b, createEntry ns key (.bytes b) = .error .valueUnsupported) ∧
    (createEntry ns key .float = .error .floatUnsupported) ∧
    (∀ v e, createEntry ns key v = .ok e →
      e.type = TYPE_U8 ∨ e.type = TYPE_U16 ∨ e.type = TYPE_U32 ∨ e.type = TYPE_STR) := by
  refine ⟨fun b => rfl, rfl, ?_⟩
  intro v e hok
  cases v with
  | str s =>
    simp only [createEntry] at hok
    cases hok
    simp [TYPE_STR]
  | int n =>
    simp only [createEntry] at hok
    by_cases h1 : 0 ≤ n ∧ n ≤ 255
    · rw [if_pos h1] at hok; cases hok; simp [TYPE_U8]
    · rw [if_neg h1] at hok
      by_cases h2 : 0 ≤ n ∧ n ≤ 65535
      · rw [if_pos h2] at hok; cases hok; simp [TYPE_U16]
      · rw [if_neg h2] at hok; cases hok; simp [TYPE_U32]
  | bytes b => cases hok
  | float => cases hok

set_option maxRecDepth 10000 in
/-- C8 counterexample: a 100-byte byte-slice payload, far below the
claimed 65535-byte acceptance bound, is rejected (with the
unsupported-value error, not ValueTooLarge). -/
theorem c8_counterexample :
    generate [([110], [([107], .bytes (List.replicate 100 7))])] 24576
      = .error .valueUnsupported := by decide

/-- C8 amended: the encoder has no payload-size check at all: a
string of any length is accepted (its stored 16-bit length field
wraps modulo 65536), and byte slices of any size are rejected with
the unsupported-value error; no too-large error exists. -/
theorem c8_no_value_too_large (ns : Nat) (key : List Nat) (s : List Nat)
    (size : Nat) (m : Mem) (p i : Nat) (hsize : slotOff p i + 32 ≤ size) :
    (createEntry ns key (.str s)
        = .ok ⟨ns, TYPE_STR, 1 + (s.length + 1 + 31) / 32, key, s ++ [0]⟩) ∧
    (getUint16 (writeEntry size m p i
          ⟨ns, TYPE_STR, 1 + (s.length + 1 + 31) / 32, key, s ++ [0]⟩)
        (slotOff p i + 24) = (s.length + 1) % 65536) ∧
    (∀ b : List Nat, createEntry ns key (.bytes b) = .error .valueUnsupported) := by
  refine ⟨?_, ?_, fun b => rfl⟩
  · simp only [createEntry, ENTRY_SIZE, List.length_append, List.length_cons,
      List.length_nil]
  · have h := writeEntry_strlen_spec size m p i
      ⟨ns, TYPE_STR, 1 + (s.length + 1 + 31) / 32, key, s ++ [0]⟩ hsize (Or.inl rfl)
    simp only [List.length_append, List.length_cons, List.length_nil] at h
    exact h

/-- C8 witness at a concrete input. -/
theorem c8_witness :
    (slotOff 0 2 + 32 ≤ 24576) ∧
    ((createEntry 1 [107] (.str [104, 105])
        = .ok ⟨1, TYPE_STR, 1 + (2 + 1 + 31) / 32, [107], [104, 105] ++ [0]⟩) ∧
      (getUint16 (writeEntry 24576 [] 0 2
            ⟨1, TYPE_STR, 1 + (2 + 1 + 31) / 32, [107], [104, 105] ++ [0]⟩)
          (slotOff 0 2 + 24) = (2 + 1) % 65536) ∧
      (∀ b : List Nat, createEntry 1 [107] (.bytes b) = .error .valueUnsupported)) :=
  ⟨by decide, c8_no_value_too_large 1 [107] [104, 105] 24576 [] 0 2 (by decide)⟩

set_option maxRecDepth 10000 in
/-- C4 counterexample: a key of 16 bytes is accepted without any
error; the key field of the written entry shows it silently
truncated to 15 bytes and null padded. -/
theorem c4_counterexample :
    (generate [([110], [(List.replicate 16 97, .int 1)])] 24576).map
        (fun img => img.readBytes (32 + 2 * 32 + 8) 16)
      = .ok (List.replicate 15 97 ++ [0]) := by decide

/-- C4 amended: no KeyTooLong error exists: createEntry succeeds or
fails independently of the key, and writeEntry silently stores only
the first 15 key bytes, zero padded to 16 (so a 15-byte key is
stored in full and a 16-byte key loses its last byte). -/
theorem c4_key_truncated (size : Nat) (m : Mem) (p i : Nat) (e : Entry)
    (hsize : slotOff p i + 32 ≤ size) :
    readBytes (writeEntry size m p i e) (slotOff p i + 8) 16 = keyField e.key ∧
    (∀ ns key v, (createEntry ns key v).toBool = (createEntry ns [] v).toBool) := by
  refine ⟨writeEntry_key_spec size m p i e hsize, ?_⟩
  intro ns key v
  cases v with
  | str s => rfl
  | int n =>
    simp only [createEntry]
    by_cases h1 : 0 ≤ n ∧ n ≤ 255
    · rw [if_pos h1, if_pos h1]; rfl
    · rw [if_neg h1, if_neg h1]
      by_cases h2 : 0 ≤ n ∧ n ≤ 65535
      · rw [if_pos h2, if_pos h2]; rfl
      · rw [if_neg h2, if_neg h2]; rfl
  | bytes b => rfl
  | float => rfl

/-- C4 witness at a concrete input (16-byte key). -/
theorem c4_witness :
    (slotOff 0 1 + 32 ≤ 24576) ∧
    (readBytes (writeEntry 24576 [] 0 1 ⟨1, TYPE_U8, 1, List.replicate 16 97, [5]⟩)
        (slotOff 0 1 + 8) 16 = keyField (List.replicate 16 97) ∧
      (∀ ns key v, (createEntry ns key v).toBool = (createEntry ns [] v).toBool)) :=
  ⟨by decide, c4_key_truncated 24576 [] 0 1 ⟨1, TYPE_U8, 1, List.replicate 16 97, [5]⟩
    (by decide)⟩

/-- C10: a negative integer value raises no error: it is encoded via
the unsigned ladder as a U32 entry (tag 0x04, span 1) whose four
payload bytes at slot offset 24 hold the value reduced modulo 2^32,
little-endian; and no input value ever produces an I8, I16 or I32
tag. -/
theorem c10_negative_unsigned_wrap (ns : Nat) (key : List Nat) (n : Int)
    (hneg : n < 0) (size : Nat) (m : Mem) (p i : Nat)
    (hsize : slotOff p i + 32 ≤ size) :
    (createEntry ns key (.int n)
        = .ok ⟨ns, TYPE_U32, 1, key, le4 (n.emod 4294967296).toNat⟩) ∧
    (readBytes (writeEntry size m p i ⟨ns, TYPE_U32, 1, key, le4 (n.emod 4294967296).toNat⟩)
        (slotOff p i + 24) 4 = le4 (n.emod 4294967296).toNat) ∧
    (∀ v e, createEntry ns key v = .ok e →
      e.type ≠ TYPE_I8 ∧ e.type ≠ TYPE_I16 ∧ e.type ≠ TYPE_I32) := by
  refine ⟨?_, ?_, ?_⟩
  · simp only [createEntry]
    rw [if_neg (by omega), if_neg (by omega)]
  · have hlen : (le4 (n.emod 4294967296).toNat).length = 4 := by simp [le4]
    have h := writeEntry_numeric_spec size m p i
      ⟨ns, TYPE_U32, 1, key, le4 (n.emod 4294967296).toNat⟩ hsize
      (by simp [TYPE_U32, TYPE_STR, TYPE_BLOB])
      (by simp [hlen]) (le4_bytes_lt _)
    simp only [hlen] at h
    exact h
  · intro v e hok
    have h9 := (c9_bytes_rejected ns key).2.2 v e hok
    simp only [TYPE_U8, TYPE_U16, TYPE_U32, TYPE_STR, TYPE_I8, TYPE_I16, TYPE_I32] at h9 ⊢
    omega

/-- C10 witness at the concrete value −1. -/
theorem c10_witness :
    ((-1 : Int) < 0 ∧ slotOff 0 2 + 32 ≤ 24576) ∧
    ((createEntry 1 [107] (.int (-1))
        = .ok ⟨1, TYPE_U32, 1, [107], le4 ((-1 : Int).emod 4294967296).toNat⟩) ∧
      (readBytes (writeEntry 24576 [] 0 2
            ⟨1, TYPE_U32, 1, [107], le4 ((-1 : Int).emod 4294967296).toNat⟩)
          (slotOff 0 2 + 24) 4 = le4 ((-1 : Int).emod 4294967296).toNat) ∧
      (∀ v e, createEntry 1 [107] v = .ok e →
        e.type ≠ TYPE_I8 ∧ e.type ≠ TYPE_I16 ∧ e.type ≠ TYPE_I32)) :=
  ⟨⟨by decide, by decide⟩,
    c10_negative_unsigned_wrap 1 [107] (-1) (by decide) 24576 [] 0 2 (by decide)⟩

/-! Sealing lemmas: what writeEntry establishes at its slot and how
it survives later writes. -/

theorem createEntry_span_pos (ns : Nat) (key : List Nat) (v : NVSValue) (e : Entry)
    (h : createEntry ns key v = .ok e) : 1 ≤ e.span := by
  cases v with
  | str s =>
    simp only [createEntry] at h
    cases h
    simp
  | int n =>
    simp only [createEntry] at h
    by_cases h1 : 0 ≤ n ∧ n ≤ 255
    · rw [if_pos h1] at h; cases h; simp
    · rw [if_neg h1] at h
      by_cases h2 : 0 ≤ n ∧ n ≤ 65535
      · rw [if_pos h2] at h; cases h; simp
      · rw [if_neg h2] at h; cases h; simp
  | bytes b => cases h
  | float => cases h

theorem readBytes_setBytes_mod (size : Nat) (m : Mem) (o : Nat) (bs : List Nat)
    (h : o + bs.length ≤ size) :
    readBytes (setBytes size m o bs) o bs.length = bs.map (fun b => b % 256) := by
  unfold readBytes
  apply List.ext_getElem
  · simp
  · intro j hj1 hj2
    simp only [List.getElem_map, List.getElem_range]
    rw [readByte_setBytes]
    have hcond : o ≤ o + j ∧ o + j < o + bs.length ∧ o + j < size := by
      simp only [List.length_map, List.length_range] at hj1; omega
    rw [if_pos hcond]
    simp only [Nat.add_sub_cancel_left]
    simp only [List.length_map] at hj2
    rw [List.getD_eq_getElem _ _ hj2]

theorem writeEntry_numeric_mod_spec (size : Nat) (m : Mem) (p i : Nat) (e : Entry)
    (hsize : slotOff p i + 32 ≤ size)
    (ht : ¬(e.type = TYPE_STR ∨ e.type = TYPE_BLOB)) (hlen : e.data.length ≤ 8) :
    readBytes (writeEntry size m p i e) (slotOff p i + 24) e.data.length
      = e.data.map (fun b => b % 256) := by
  simp only [slotOff] at hsize ⊢
  unfold writeEntry
  simp only [if_neg ht]
  rw [readBytes_ext _ (setBytes size _ (p * PAGE_SIZE + 32 + i * ENTRY_SIZE + 24) e.data)
    _ _ (by
      intro j hj
      exact readByte_setUint32_outside _ _ _ _ _ (by omega))]
  exact readBytes_setBytes_mod size _ _ _ (by omega)

theorem setBytes_append (size : Nat) (xs ys : List Nat) :
    ∀ (o : Nat) (m : Mem),
      setBytes size m o (xs ++ ys)
        = setBytes size (setBytes size m o xs) (o + xs.length) ys := by
  induction xs with
  | nil => intro o m; simp [setBytes]
  | cons x xs ih =>
    intro o m
    have h1 : setBytes size m o ((x :: xs) ++ ys)
        = setBytes size (writeByte size m o x) (o + 1) (xs ++ ys) := rfl
    have h2 : setBytes size m o (x :: xs)
        = setBytes size (writeByte size m o x) (o + 1) xs := rfl
    rw [h1, h2, ih (o + 1)]
    have h3 : o + 1 + xs.length = o + (x :: xs).length := by
      simp only [List.length_cons]
      omega
    rw [h3]

/-- The continuation-slot loop writes the payload contiguously: when
the remaining chunks cover the remaining data, it is one setBytes of
the data from position (i − 1) · 32 onward. -/
theorem writeChunks_eq_setBytes (size : Nat) (offset : Nat) (data : List Nat) :
    ∀ (k i : Nat) (m : Mem), 1 ≤ i → data.length ≤ (i - 1) * 32 + k * 32 →
      writeChunks size m offset data i k
        = setBytes size m (offset + i * ENTRY_SIZE) (data.drop ((i - 1) * ENTRY_SIZE)) := by
  intro k
  induction k with
  | zero =>
    intro i m hi hlen
    have hdrop : data.drop ((i - 1) * ENTRY_SIZE) = [] := by
      apply List.drop_eq_nil_of_le
      simp only [ENTRY_SIZE]
      omega
    rw [hdrop]
    rfl
  | succ k ih =>
    intro i m hi hlen
    simp only [writeChunks]
    rw [ih (i + 1) _ (by omega) (by omega)]
    have hsplit : data.drop ((i - 1) * ENTRY_SIZE)
        = (data.drop ((i - 1) * ENTRY_SIZE)).take ENTRY_SIZE
          ++ data.drop (i * ENTRY_SIZE) := by
      have h1 : (data.drop ((i - 1) * ENTRY_SIZE)).drop ENTRY_SIZE
          = data.drop (i * ENTRY_SIZE) := by
        rw [List.drop_drop]
        have harr : (i - 1) * ENTRY_SIZE + ENTRY_SIZE = i * ENTRY_SIZE := by
          simp only [ENTRY_SIZE]
          omega
        rw [harr]
      rw [← h1, List.take_append_drop]
    conv =>
      rhs
      rw [hsplit]
    rw [setBytes_append]
    cases hrest : data.drop (i * ENTRY_SIZE) with
    | nil =>
      cases hrest2 : data.drop ((i + 1 - 1) * ENTRY_SIZE) with
      | nil => simp [setBytes]
      | cons a l =>
        have : i + 1 - 1 = i := by omega
        rw [this] at hrest2
        rw [hrest2] at hrest
        cases hrest
    | cons a l =>
      have hlen32 : ((data.drop ((i - 1) * ENTRY_SIZE)).take ENTRY_SIZE).length
          = ENTRY_SIZE := by
        rw [List.length_take]
        have h2 : data.length - (i - 1) * ENTRY_SIZE ≥ ENTRY_SIZE + 1 := by
          have h3 : data.length - i * ENTRY_SIZE ≥ 1 := by
            have := congrArg List.length hrest
            simp only [List.length_drop, List.length_cons] at this
            omega
          simp only [ENTRY_SIZE] at h3 ⊢
          omega
        have h4 : (data.drop ((i - 1) * ENTRY_SIZE)).length
            = data.length - (i - 1) * ENTRY_SIZE := by
          simp
        simp only [ENTRY_SIZE] at h2 h4 ⊢
        omega
      rw [hlen32]
      have harith : offset + i * ENTRY_SIZE + ENTRY_SIZE = offset + (i + 1) * ENTRY_SIZE := by
        simp only [ENTRY_SIZE]
        omega
      rw [harith]
      have hidx : i + 1 - 1 = i := by omega
      rw [hidx]
      rw [hrest]

/-- The payload of a freshly written STR slot as it reads back from
the continuation slots: the data bytes reduced modulo 256. -/
theorem writeEntry_chunks_spec (size : Nat) (m : Mem) (p i : Nat) (e : Entry)
    (ht : e.type = TYPE_STR ∨ e.type = TYPE_BLOB)
    (hspan : e.data.length + 32 ≤ 32 * e.span)
    (hsizeC : slotOff p i + 32 + e.data.length ≤ size) :
    readBytes (writeEntry size m p i e) (slotOff p i + 32) e.data.length
      = e.data.map (fun b => b % 256) := by
  simp only [slotOff] at hsizeC ⊢
  unfold writeEntry
  simp only [if_pos ht]
  rw [readBytes_ext _ (writeChunks size _
      (p * PAGE_SIZE + 32 + i * ENTRY_SIZE) e.data 1 (e.span - 1))
    _ _ (by
      intro j hj
      exact readByte_setUint32_outside _ _ _ _ _ (by omega))]
  rw [writeChunks_eq_setBytes size _ e.data (e.span - 1) 1 _ (le_refl 1)
    (by omega)]
  simp only [ENTRY_SIZE, Nat.sub_self, Nat.zero_mul, List.drop_zero, Nat.one_mul]
  exact readBytes_setBytes_mod size _ _ _ (by
    simp only [ENTRY_SIZE] at hsizeC
    omega)

theorem writeEntry_seals (size : Nat) (m : Mem) (p i : Nat) (e : Entry)
    (hsize : slotOff p i + 32 ≤ size)
    (hsizeC : i + e.span ≤ 126 → e.data.length + 32 ≤ 32 * e.span →
      slotOff p i + 32 + e.data.length ≤ size) :
    SlotSealed (writeEntry size m p i e) p i e := by
  refine ⟨writeEntry_hdr_spec size m p i e hsize,
    writeEntry_key_spec size m p i e hsize,
    writeEntry_crc_spec size m p i e hsize, ?_, ?_⟩
  · intro ht hlen
    exact writeEntry_numeric_mod_spec size m p i e hsize ht hlen
  · intro ht hspan hj
    exact ⟨writeEntry_strlen_spec size m p i e hsize (Or.inl ht),
      writeEntry_chunks_spec size m p i e (Or.inl ht) hspan (hsizeC hj hspan)⟩

theorem slotSealed_mono (m2 m : Mem) (q j : Nat) (e : Entry)
    (hagree : ∀ r, r < 32 → readByte m2 (slotOff q j + r) = readByte m (slotOff q j + r))
    (hagreeW : e.type = TYPE_STR → e.data.length + 32 ≤ 32 * e.span → j + e.span ≤ 126 →
      ∀ r, r < 32 + e.data.length →
        readByte m2 (slotOff q j + r) = readByte m (slotOff q j + r))
    (h : SlotSealed m q j e) : SlotSealed m2 q j e := by
  obtain ⟨h1, h2, h3, h4, h5⟩ := h
  have e0 : readBytes m2 (slotOff q j) 4 = readBytes m (slotOff q j) 4 := by
    apply readBytes_ext
    intro r hr
    exact hagree r (by omega)
  have e4 : readBytes m2 (slotOff q j + 4) 4 = readBytes m (slotOff q j + 4) 4 := by
    apply readBytes_ext
    intro r hr
    have : slotOff q j + 4 + r = slotOff q j + (4 + r) := by omega
    rw [this]
    exact hagree (4 + r) (by omega)
  have e8 : readBytes m2 (slotOff q j + 8) 16 = readBytes m (slotOff q j + 8) 16 := by
    apply readBytes_ext
    intro r hr
    have : slotOff q j + 8 + r = slotOff q j + (8 + r) := by omega
    rw [this]
    exact hagree (8 + r) (by omega)
  have e24 : readBytes m2 (slotOff q j + 24) 8 = readBytes m (slotOff q j + 24) 8 := by
    apply readBytes_ext
    intro r hr
    have : slotOff q j + 24 + r = slotOff q j + (24 + r) := by omega
    rw [this]
    exact hagree (24 + r) (by omega)
  refine ⟨by rw [e0]; exact h1, by rw [e8]; exact h2,
    by rw [e4, e0, e8, e24]; exact h3, ?_, ?_⟩
  · intro ht hlen
    have e24n : readBytes m2 (slotOff q j + 24) e.data.length
        = readBytes m (slotOff q j + 24) e.data.length := by
      apply readBytes_ext
      intro r hr
      have : slotOff q j + 24 + r = slotOff q j + (24 + r) := by omega
      rw [this]
      exact hagree (24 + r) (by omega)
    rw [e24n]
    exact h4 ht hlen
  · intro ht hspan hj
    have hW := hagreeW ht hspan hj
    have e16 : getUint16 m2 (slotOff q j + 24) = getUint16 m (slotOff q j + 24) := by
      unfold getUint16
      have r24 : slotOff q j + 24 = slotOff q j + 24 := rfl
      have r25 : slotOff q j + 24 + 1 = slotOff q j + 25 := by omega
      rw [r25, hagree 24 (by omega), hagree 25 (by omega)]
    have e32 : readBytes m2 (slotOff q j + 32) e.data.length
        = readBytes m (slotOff q j + 32) e.data.length := by
      apply readBytes_ext
      intro r hr
      have : slotOff q j + 32 + r = slotOff q j + (32 + r) := by omega
      rw [this]
      exact hW (32 + r) (by omega)
    rw [e16, e32]
    exact h5 ht hspan hj

theorem readByte_finalizePage_outside (size : Nat) (m : Mem) (q n o : Nat)
    (h : o < q * PAGE_SIZE ∨ q * PAGE_SIZE + 32 ≤ o) :
    readByte (finalizePage size m q n) o = readByte m o := by
  unfold finalizePage
  simp only []
  rw [readByte_setUint32_outside _ _ _ _ _ (by omega)]
  rw [readByte_setUint32_outside _ _ _ _ _ (by omega)]
  rw [readByte_setUint32_outside _ _ _ _ _ (by omega)]
  rw [readByte_setUint32_outside _ _ _ _ _ (by omega)]

/-- Main invariant of the key-value loop: on success the ghost layout
agrees with the cursor result, the cursor moves monotonically and
stays on valid pages, bytes strictly below the entry area of the
starting cursor (and outside the header and bitmap columns of each
page) are untouched, and every placement performed lies between the
two cursors, is sealed in the resulting buffer, and placements are
laid out in strictly increasing slot order. -/
theorem writeKVs_main (size numPages nsIndex : Nat) (hN : numPages * PAGE_SIZE ≤ size) :
    ∀ (kvs : List (List Nat × NVSValue)) (m : Mem) (p i : Nat) (m2 : Mem) (p2 i2 : Nat),
      writeKVs size m p i numPages nsIndex kvs = .ok (m2, p2, i2) →
      p < numPages → 1 ≤ i → i ≤ 126 →
      ∃ ps, layoutKVs p i numPages nsIndex kvs = .ok (ps, p2, i2) ∧
        p ≤ p2 ∧ p2 < numPages ∧ 1 ≤ i2 ∧ i2 ≤ 126 ∧
        (kvs = [] → i2 = i ∧ p2 = p) ∧ (kvs ≠ [] → i2 ≤ 125) ∧
        slotOff p i ≤ slotOff p2 i2 ∧
        (∀ o, o < slotOff p i → 64 ≤ o % PAGE_SIZE → readByte m2 o = readByte m o) ∧
        (∀ pe ∈ ps, pe.1 < numPages ∧ 1 ≤ pe.2.1 ∧ pe.2.1 ≤ 126 ∧
          slotOff p i ≤ slotOff pe.1 pe.2.1 ∧
          slotOff pe.1 pe.2.1 + 32 ≤ slotOff p2 i2 ∧
          (pe.2.2.type = TYPE_STR → pe.2.2.data.length + 32 ≤ 32 * pe.2.2.span →
            pe.2.1 + pe.2.2.span ≤ 126 →
            slotOff pe.1 pe.2.1 + 32 + pe.2.2.data.length ≤ slotOff p2 i2) ∧
          SlotSealed m2 pe.1 pe.2.1 pe.2.2) ∧
        List.Pairwise (fun a b : Nat × Nat × Entry =>
          slotOff a.1 a.2.1 + 32 ≤ slotOff b.1 b.2.1) ps := by
  intro kvs
  induction kvs with
  | nil =>
    intro m p i m2 p2 i2 hok hp hi1 hi2
    simp only [writeKVs] at hok
    cases hok
    exact ⟨[], rfl, le_refl _, hp, hi1, hi2, fun _ => ⟨rfl, rfl⟩, fun h => absurd rfl h,
      le_refl _, fun o _ _ => rfl, by simp, List.Pairwise.nil⟩
  | cons kv rest ih =>
    intro m p i m2 p2 i2 hok hp hi1 hi2
    obtain ⟨key, value⟩ := kv
    simp only [writeKVs] at hok
    cases hce : createEntry nsIndex key value with
    | error e => rw [hce] at hok; cases hok
    | ok entry =>
      rw [hce] at hok
      simp only [] at hok
      have hspan := createEntry_span_pos _ _ _ _ hce
      have hslot32 : slotOff p i + 32 ≤ size := by
        simp only [slotOff, PAGE_SIZE, ENTRY_SIZE]
        simp only [PAGE_SIZE] at hN
        omega
      have hseal1 : SlotSealed (writeEntry size m p i entry) p i entry :=
        writeEntry_seals size m p i entry hslot32 (by
          intro hjs hlb
          simp only [slotOff, PAGE_SIZE, ENTRY_SIZE]
          simp only [PAGE_SIZE] at hN
          omega)
      by_cases hfull : ENTRIES_PER_PAGE ≤ i + entry.span
      · rw [if_pos hfull] at hok
        by_cases hnp : numPages ≤ p + 1
        · rw [if_pos hnp] at hok; cases hok
        · rw [if_neg hnp] at hok
          obtain ⟨ps2, hlay2, hple2, hp22, hi21, hi22, hnil2, hne2, hcur2, hpres2,
            hseal2, hpw2⟩ := ih _ _ _ _ _ _ hok (by omega) (by omega) (by omega)
          have hstep : slotOff p i + 32 ≤ slotOff (p + 1) 1 := by
            simp only [slotOff, PAGE_SIZE, ENTRY_SIZE]
            omega
          refine ⟨(p, i, entry) :: ps2, ?_, by omega, hp22, hi21, hi22,
            (fun h => absurd h (List.cons_ne_nil _ _)), ?_, ?_, ?_, ?_, ?_⟩
          · simp only [layoutKVs, hce]
            rw [if_pos hfull, if_neg hnp, hlay2]
          · intro _
            by_cases hr : rest = []
            · subst hr
              exact le_trans (le_of_eq (hnil2 rfl).1) (by omega)
            · exact hne2 hr
          · exact le_trans (by omega) hcur2
          · intro o ho hmod
            rw [hpres2 o (by
                simp only [slotOff, PAGE_SIZE, ENTRY_SIZE] at ho ⊢
                omega) hmod]
            rw [readByte_writeByte_ne _ _ _ _ _ (by
                simp only [PAGE_SIZE] at hmod ⊢
                omega)]
            rw [readByte_writeByte_ne _ _ _ _ _ (by
                simp only [PAGE_SIZE] at hmod ⊢
                omega)]
            rw [readByte_finalizePage_outside _ _ _ _ _ (by
                simp only [slotOff, PAGE_SIZE, ENTRY_SIZE] at ho hmod ⊢
                omega)]
            exact readByte_writeEntry_below _ _ _ _ _ _ ho
          · intro pe hpe
            rcases List.mem_cons.mp hpe with rfl | hpe2
            · refine ⟨hp, hi1, hi2, le_refl _, le_trans hstep hcur2, ?_, ?_⟩
              · intro ht hlb hjs
                have hlb2 : entry.data.length + 32 ≤ 32 * entry.span := hlb
                have hjs2 : i + entry.span ≤ 126 := hjs
                refine le_trans (show slotOff p i + 32 + entry.data.length
                    ≤ slotOff (p + 1) 1 from ?_) hcur2
                simp only [slotOff, PAGE_SIZE, ENTRY_SIZE]
                omega
              · refine slotSealed_mono _ _ _ _ _ ?_ ?_ hseal1
                · intro r hr
                  rw [hpres2 (slotOff p i + r) (by
                      simp only [slotOff, PAGE_SIZE, ENTRY_SIZE]
                      omega) (by
                      simp only [slotOff, PAGE_SIZE, ENTRY_SIZE]
                      omega)]
                  rw [readByte_writeByte_ne _ _ _ _ _ (by
                      simp only [slotOff, PAGE_SIZE, ENTRY_SIZE]
                      omega)]
                  rw [readByte_writeByte_ne _ _ _ _ _ (by
                      simp only [slotOff, PAGE_SIZE, ENTRY_SIZE]
                      omega)]
                  exact readByte_finalizePage_outside _ _ _ _ _ (by
                    simp only [slotOff, PAGE_SIZE, ENTRY_SIZE]
                    omega)
                · intro ht hlb hjs r hr
                  have hlb2 : entry.data.length + 32 ≤ 32 * entry.span := hlb
                  have hjs2 : i + entry.span ≤ 126 := hjs
                  have hr2 : r < 32 + entry.data.length := hr
                  rw [hpres2 (slotOff p i + r) (by
                      simp only [slotOff, PAGE_SIZE, ENTRY_SIZE]
                      omega) (by
                      simp only [slotOff, PAGE_SIZE, ENTRY_SIZE]
                      omega)]
                  rw [readByte_writeByte_ne _ _ _ _ _ (by
                      simp only [slotOff, PAGE_SIZE, ENTRY_SIZE]
                      omega)]
                  rw [readByte_writeByte_ne _ _ _ _ _ (by
                      simp only [slotOff, PAGE_SIZE, ENTRY_SIZE]
                      omega)]
                  exact readByte_finalizePage_outside _ _ _ _ _ (by
                    simp only [slotOff, PAGE_SIZE, ENTRY_SIZE]
                    omega)
            · obtain ⟨hb1, hb2, hb3, hb4, hb5, hb6, hb7⟩ := hseal2 pe hpe2
              exact ⟨hb1, hb2, hb3, le_trans (le_trans (by omega) hstep) hb4, hb5,
                hb6, hb7⟩
          · refine List.Pairwise.cons ?_ hpw2
            intro b hb
            exact le_trans hstep (hseal2 b hb).2.2.2.1
      · rw [if_neg hfull] at hok
        simp only [ENTRIES_PER_PAGE] at hfull
        obtain ⟨ps2, hlay2, hple2, hp22, hi21, hi22, hnil2, hne2, hcur2, hpres2,
          hseal2, hpw2⟩ := ih _ _ _ _ _ _ hok hp (by omega) (by omega)
        have hstep : slotOff p i + 32 ≤ slotOff p (i + entry.span) := by
          simp only [slotOff, PAGE_SIZE, ENTRY_SIZE]
          have : 32 * 1 ≤ 32 * entry.span := Nat.mul_le_mul_left 32 hspan
          omega
        refine ⟨(p, i, entry) :: ps2, ?_, hple2, hp22, hi21, hi22,
          (fun h => absurd h (List.cons_ne_nil _ _)), ?_, ?_, ?_, ?_, ?_⟩
        · simp only [layoutKVs, hce]
          rw [if_neg (by simp only [ENTRIES_PER_PAGE]; omega), hlay2]
        · intro _
          by_cases hr : rest = []
          · subst hr
            exact le_trans (le_of_eq (hnil2 rfl).1) (by omega)
          · exact hne2 hr
        · exact le_trans (by omega) hcur2
        · intro o ho hmod
          rw [hpres2 o (by
              simp only [slotOff, PAGE_SIZE, ENTRY_SIZE] at ho ⊢
              omega) hmod]
          exact readByte_writeEntry_below _ _ _ _ _ _ ho
        · intro pe hpe
          rcases List.mem_cons.mp hpe with rfl | hpe2
          · refine ⟨hp, hi1, hi2, le_refl _, le_trans hstep hcur2, ?_, ?_⟩
            · intro ht hlb hjs
              have hlb2 : entry.data.length + 32 ≤ 32 * entry.span := hlb
              refine le_trans (show slotOff p i + 32 + entry.data.length
                  ≤ slotOff p (i + entry.span) from ?_) hcur2
              simp only [slotOff, PAGE_SIZE, ENTRY_SIZE]
              omega
            · refine slotSealed_mono _ _ _ _ _ ?_ ?_ hseal1
              · intro r hr
                rw [hpres2 (slotOff p i + r) (by
                    simp only [slotOff, PAGE_SIZE, ENTRY_SIZE]
                    omega) (by
                    simp only [slotOff, PAGE_SIZE, ENTRY_SIZE]
                    omega)]
              · intro ht hlb hjs r hr
                have hlb2 : entry.data.length + 32 ≤ 32 * entry.span := hlb
                have hr2 : r < 32 + entry.data.length := hr
                rw [hpres2 (slotOff p i + r) (by
                    simp only [slotOff, PAGE_SIZE, ENTRY_SIZE]
                    omega) (by
                    simp only [slotOff, PAGE_SIZE, ENTRY_SIZE]
                    omega)]
          · obtain ⟨hb1, hb2, hb3, hb4, hb5, hb6, hb7⟩ := hseal2 pe hpe2
            exact ⟨hb1, hb2, hb3, le_trans (le_trans (by omega) hstep) hb4, hb5,
              hb6, hb7⟩
        · refine List.Pairwise.cons ?_ hpw2
          intro b hb
          exact le_trans hstep (hseal2 b hb).2.2.2.1

/-- Main invariant of the namespace loop, extending the key-value
invariant: the namespace-definition entry of each non-empty
namespace is placed and sealed, followed by the placements of its
data entries. -/
theorem writeNamespaces_main (size numPages : Nat) (nsMap : List (List Nat × Nat))
    (hN : numPages * PAGE_SIZE ≤ size) :
    ∀ (data : PData) (m : Mem) (p i : Nat) (m2 : Mem) (p2 i2 : Nat),
      writeNamespaces size m p i numPages nsMap data = .ok (m2, p2, i2) →
      p < numPages → 1 ≤ i → i ≤ 125 →
      ∃ ps, layoutNamespaces p i numPages nsMap data = .ok (ps, p2, i2) ∧
        p ≤ p2 ∧ p2 < numPages ∧ 1 ≤ i2 ∧ i2 ≤ 125 ∧
        slotOff p i ≤ slotOff p2 i2 ∧
        (∀ o, o < slotOff p i → 64 ≤ o % PAGE_SIZE → readByte m2 o = readByte m o) ∧
        (∀ pe ∈ ps, pe.1 < numPages ∧ 1 ≤ pe.2.1 ∧ pe.2.1 ≤ 126 ∧
          slotOff p i ≤ slotOff pe.1 pe.2.1 ∧
          slotOff pe.1 pe.2.1 + 32 ≤ slotOff p2 i2 ∧
          (pe.2.2.type = TYPE_STR → pe.2.2.data.length + 32 ≤ 32 * pe.2.2.span →
            pe.2.1 + pe.2.2.span ≤ 126 →
            slotOff pe.1 pe.2.1 + 32 + pe.2.2.data.length ≤ slotOff p2 i2) ∧
          SlotSealed m2 pe.1 pe.2.1 pe.2.2) ∧
        List.Pairwise (fun a b : Nat × Nat × Entry =>
          slotOff a.1 a.2.1 + 32 ≤ slotOff b.1 b.2.1) ps := by
  intro data
  induction data with
  | nil =>
    intro m p i m2 p2 i2 hok hp hi1 hi2
    simp only [writeNamespaces] at hok
    cases hok
    exact ⟨[], rfl, le_refl _, hp, hi1, hi2, le_refl _, fun o _ _ => rfl, by simp,
      List.Pairwise.nil⟩
  | cons nsp rest ih =>
    intro m p i m2 p2 i2 hok hp hi1 hi2
    obtain ⟨nsName, entries⟩ := nsp
    simp only [writeNamespaces] at hok
    by_cases hemp : entries = []
    · rw [if_pos hemp] at hok
      obtain ⟨ps2, hlay2, hple2, hp22, hi21, hi22, hcur2, hpres2, hseal2, hpw2⟩ :=
        ih _ _ _ _ _ _ hok hp hi1 hi2
      refine ⟨ps2, ?_, hple2, hp22, hi21, hi22, hcur2, hpres2, hseal2, hpw2⟩
      simp only [layoutNamespaces]
      rw [if_pos hemp, hlay2]
    · rw [if_neg hemp] at hok
      have hslot32 : slotOff p i + 32 ≤ size := by
        simp only [slotOff, PAGE_SIZE, ENTRY_SIZE]
        simp only [PAGE_SIZE] at hN
        omega
      have hsealNs : SlotSealed
          (writeEntry size m p i ⟨0, 0x01, 1, nsName, [lookupNsIndex nsMap nsName]⟩)
          p i ⟨0, 0x01, 1, nsName, [lookupNsIndex nsMap nsName]⟩ :=
        writeEntry_seals size m p i _ hslot32 (by
          intro hjs hlb
          exact absurd hlb (show ¬ ((1 : Nat) + 32 ≤ 32 * 1) by decide))
      cases hwk : writeKVs size
          (writeEntry size m p i ⟨0, 0x01, 1, nsName, [lookupNsIndex nsMap nsName]⟩)
          p (i + 1) numPages (lookupNsIndex nsMap nsName) entries with
      | error e => rw [hwk] at hok; cases hok
      | ok t =>
        obtain ⟨mK, pK, iK⟩ := t
        rw [hwk] at hok
        obtain ⟨psK, hlayK, hpleK, hpK, hiK1, hiK2, hnilK, hneK, hcurK, hpresK,
          hsealK, hpwK⟩ := writeKVs_main size numPages _ hN entries _ p (i + 1) mK pK iK
            hwk hp (by omega) (by omega)
        have hiK125 : iK ≤ 125 := hneK hemp
        obtain ⟨psR, hlayR, hpleR, hpR, hiR1, hiR2, hcurR, hpresR, hsealR, hpwR⟩ :=
          ih _ _ _ _ _ _ hok hpK hiK1 hiK125
        have hstep : slotOff p i + 32 ≤ slotOff p (i + 1) := by
          simp only [slotOff, PAGE_SIZE, ENTRY_SIZE]
          omega
        refine ⟨(p, i, ⟨0, 0x01, 1, nsName, [lookupNsIndex nsMap nsName]⟩)
          :: (psK ++ psR), ?_, by omega, hpR, hiR1, hiR2, ?_, ?_, ?_, ?_⟩
        · simp only [layoutNamespaces, if_neg hemp, hlayK, hlayR]
        · exact le_trans (by omega) (le_trans hcurK hcurR)
        · intro o ho hmod
          rw [hpresR o (by
              have h1 : slotOff p i ≤ slotOff pK iK := le_trans (by omega) hcurK
              omega) hmod]
          rw [hpresK o (by omega) hmod]
          exact readByte_writeEntry_below _ _ _ _ _ _ ho
        · intro pe hpe
          rcases List.mem_cons.mp hpe with rfl | hpe2
          · refine ⟨hp, hi1, le_trans hi2 (by omega), le_refl _,
              le_trans (le_trans hstep hcurK) hcurR, ?_, ?_⟩
            · intro ht
              exact absurd ht (show ¬ ((1 : Nat) = TYPE_STR) by decide)
            · refine slotSealed_mono _ _ _ _ _ ?_ ?_ hsealNs
              · intro r hr
                rw [hpresR (slotOff p i + r) (by
                    have h1 : slotOff p i + 32 ≤ slotOff pK iK := le_trans hstep hcurK
                    omega) (by
                    simp only [slotOff, PAGE_SIZE, ENTRY_SIZE]
                    omega)]
                exact hpresK (slotOff p i + r) (by omega) (by
                  simp only [slotOff, PAGE_SIZE, ENTRY_SIZE]
                  omega)
              · intro ht
                exact absurd ht (show ¬ ((1 : Nat) = TYPE_STR) by decide)
          · rcases List.mem_append.mp hpe2 with hK | hR
            · obtain ⟨hb1, hb2, hb3, hb4, hb5, hb6, hb7⟩ := hsealK pe hK
              refine ⟨hb1, hb2, hb3, le_trans (by omega) hb4,
                le_trans hb5 hcurR, ?_, ?_⟩
              · intro ht hlb hjs
                exact le_trans (hb6 ht hlb hjs) hcurR
              · refine slotSealed_mono _ _ _ _ _ ?_ ?_ hb7
                · intro r hr
                  refine hpresR (slotOff pe.1 pe.2.1 + r) (by omega) ?_
                  simp only [slotOff, PAGE_SIZE, ENTRY_SIZE]
                  have hj1 := hb2
                  have hj2 := hb3
                  simp only [slotOff, PAGE_SIZE, ENTRY_SIZE] at hb4
                  omega
                · intro ht hlb hjs r hr
                  have hw := hb6 ht hlb hjs
                  refine hpresR (slotOff pe.1 pe.2.1 + r) (by omega) ?_
                  simp only [slotOff, PAGE_SIZE, ENTRY_SIZE]
                  have hj1 := hb2
                  have hj2 := hb3
                  omega
            · obtain ⟨hb1, hb2, hb3, hb4, hb5, hb6, hb7⟩ := hsealR pe hR
              exact ⟨hb1, hb2, hb3,
                le_trans (le_trans (by omega) hcurK) hb4, hb5, hb6, hb7⟩
        · refine List.Pairwise.cons ?_ ?_
          · intro b hb
            rcases List.mem_append.mp hb with hK | hR
            · exact le_trans hstep (hsealK b hK).2.2.2.1
            · exact le_trans hstep (le_trans hcurK (hsealR b hR).2.2.2.1)
          · rw [List.pairwise_append]
            refine ⟨hpwK, hpwR, ?_⟩
            intro a ha b hb
            exact le_trans (hsealK a ha).2.2.2.2.1 (hsealR b hb).2.2.2.1

theorem readBytes_four (m : Mem) (o a b c d : Nat)
    (h : readBytes m o 4 = [a, b, c, d]) :
    readByte m o = a ∧ readByte m (o + 1) = b ∧
      readByte m (o + 2) = c ∧ readByte m (o + 3) = d := by
  have h4 : readBytes m o 4
      = [readByte m (o + 0), readByte m (o + 1),
          readByte m (o + 2), readByte m (o + 3)] := rfl
  rw [h4] at h
  simp only [List.cons.injEq, and_true] at h
  obtain ⟨h0, h1, h2, h3⟩ := h
  exact ⟨by simpa using h0, h1, h2, h3⟩

theorem readBytes_one (m : Mem) (o a : Nat)
    (h : readBytes m o 1 = [a]) : readByte m o = a := by
  have h1 : readBytes m o 1 = [readByte m (o + 0)] := rfl
  rw [h1] at h
  simp only [List.cons.injEq, and_true] at h
  simpa using h

/-- Cursor bounds of the ghost key-value layout: starting from a
valid slot cursor it ends at a valid slot cursor, never moves the
byte offset backwards, and after at least one entry the cursor slot
is at most 125. -/
theorem layoutKVs_cursor (numPages nsIndex : Nat) :
    ∀ (kvs : List (List Nat × NVSValue)) (p i : Nat)
      (ps : List (Nat × Nat × Entry)) (p2 i2 : Nat),
      layoutKVs p i numPages nsIndex kvs = .ok (ps, p2, i2) →
      1 ≤ i → i ≤ 126 →
      slotOff p i ≤ slotOff p2 i2 ∧ 1 ≤ i2 ∧ i2 ≤ 126 ∧
        (kvs ≠ [] → i2 ≤ 125) := by
  intro kvs
  induction kvs with
  | nil =>
    intro p i ps p2 i2 hok hi1 hi2
    simp only [layoutKVs] at hok
    cases hok
    exact ⟨le_refl _, hi1, hi2, fun h => absurd rfl h⟩
  | cons kv rest ih =>
    intro p i ps p2 i2 hok hi1 hi2
    obtain ⟨key, value⟩ := kv
    simp only [layoutKVs] at hok
    cases hce : createEntry nsIndex key value with
    | error e => rw [hce] at hok; cases hok
    | ok entry =>
      rw [hce] at hok
      simp only [] at hok
      have hspan := createEntry_span_pos _ _ _ _ hce
      by_cases hfull : ENTRIES_PER_PAGE ≤ i + entry.span
      · rw [if_pos hfull] at hok
        by_cases hnp : numPages ≤ p + 1
        · rw [if_pos hnp] at hok; cases hok
        · rw [if_neg hnp] at hok
          cases hrec : layoutKVs (p + 1) 1 numPages nsIndex rest with
          | error e => rw [hrec] at hok; cases hok
          | ok t =>
            obtain ⟨psR, pR, iR⟩ := t
            obtain ⟨hc, h1, h2, h3⟩ := ih (p + 1) 1 psR pR iR hrec (le_refl 1) (by omega)
            rw [hrec] at hok
            cases hok
            refine ⟨le_trans ?_ hc, h1, h2, ?_⟩
            · simp only [slotOff, PAGE_SIZE, ENTRY_SIZE]
              omega
            · intro hne
              cases rest with
              | nil =>
                simp only [layoutKVs] at hrec
                cases hrec
                omega
              | cons a b => exact h3 (by simp)
      · rw [if_neg hfull] at hok
        simp only [ENTRIES_PER_PAGE] at hfull
        cases hrec : layoutKVs p (i + entry.span) numPages nsIndex rest with
        | error e => rw [hrec] at hok; cases hok
        | ok t =>
          obtain ⟨psR, pR, iR⟩ := t
          obtain ⟨hc, h1, h2, h3⟩ :=
            ih p (i + entry.span) psR pR iR hrec (by omega) (by omega)
          rw [hrec] at hok
          cases hok
          refine ⟨le_trans ?_ hc, h1, h2, ?_⟩
          · simp only [slotOff, PAGE_SIZE, ENTRY_SIZE]
            omega
          · intro hne
            cases rest with
            | nil =>
              simp only [layoutKVs] at hrec
              cases hrec
              omega
            | cons a b => exact h3 (by simp)

/-- The ghost namespace layout places one namespace-definition entry
per non-empty namespace, in insertion order and at strictly
increasing slot offsets, with the index byte taken from the
namespace map. -/
theorem layoutNamespaces_slots (numPages : Nat) (nsMap : List (List Nat × Nat)) :
    ∀ (data : PData) (p i : Nat) (ps : List (Nat × Nat × Entry)) (p2 i2 : Nat),
      layoutNamespaces p i numPages nsMap data = .ok (ps, p2, i2) →
      1 ≤ i → i ≤ 125 →
      ∃ slots : List (Nat × Nat),
        slots.length = (nonemptyNS data).length ∧
        List.Pairwise (fun a b : Nat × Nat =>
          slotOff a.1 a.2 + 32 ≤ slotOff b.1 b.2) slots ∧
        (∀ s ∈ slots, slotOff p i ≤ slotOff s.1 s.2) ∧
        (∀ (k : Nat) (s : Nat × Nat) (ns : List Nat × List (List Nat × NVSValue)),
          slots[k]? = some s → (nonemptyNS data)[k]? = some ns →
          (s.1, s.2, (⟨0, 0x01, 1, ns.1, [lookupNsIndex nsMap ns.1]⟩ : Entry)) ∈ ps) := by
  intro data
  induction data with
  | nil =>
    intro p i ps p2 i2 hok hi1 hi2
    refine ⟨[], by simp [nonemptyNS], List.Pairwise.nil, by simp, ?_⟩
    intro k s ns hs hns
    simp at hs
  | cons nsp rest ih =>
    intro p i ps p2 i2 hok hi1 hi2
    obtain ⟨nsName, entries⟩ := nsp
    simp only [layoutNamespaces] at hok
    by_cases hemp : entries = []
    · rw [if_pos hemp] at hok
      obtain ⟨slots, hlen, hpw, hlow, hmem⟩ := ih _ _ _ _ _ hok hi1 hi2
      have hfil : nonemptyNS ((nsName, entries) :: rest) = nonemptyNS rest := by
        subst hemp
        rfl
      exact ⟨slots, by rw [hfil]; exact hlen, hpw, hlow, by rw [hfil]; exact hmem⟩
    · rw [if_neg hemp] at hok
      have hfil : nonemptyNS ((nsName, entries) :: rest)
          = (nsName, entries) :: nonemptyNS rest := by
        cases entries with
        | nil => exact absurd rfl hemp
        | cons a l => rfl
      cases hlayK : layoutKVs p (i + 1) numPages (lookupNsIndex nsMap nsName) entries with
      | error e => rw [hlayK] at hok; cases hok
      | ok t =>
        obtain ⟨psK, pK, iK⟩ := t
        rw [hlayK] at hok
        simp only [] at hok
        obtain ⟨hcK, hiK1, hiK2, hneK⟩ :=
          layoutKVs_cursor numPages _ entries p (i + 1) psK pK iK hlayK (by omega) (by omega)
        have hiK125 : iK ≤ 125 := hneK hemp
        cases hlayR : layoutNamespaces pK iK numPages nsMap rest with
        | error e => rw [hlayR] at hok; cases hok
        | ok t2 =>
          obtain ⟨psR, pR, iR⟩ := t2
          rw [hlayR] at hok
          cases hok
          obtain ⟨slotsR, hlenR, hpwR, hlowR, hmemR⟩ :=
            ih _ _ _ _ _ hlayR hiK1 hiK125
          have hstep : slotOff p i + 32 ≤ slotOff p (i + 1) := by
            simp only [slotOff, PAGE_SIZE, ENTRY_SIZE]
            omega
          refine ⟨(p, i) :: slotsR, ?_, ?_, ?_, ?_⟩
          · rw [hfil]
            simp [hlenR]
          · refine List.Pairwise.cons ?_ hpwR
            intro b hb
            exact le_trans hstep (le_trans hcK (hlowR b hb))
          · intro s hs
            rcases List.mem_cons.mp hs with rfl | hs2
            · exact le_refl _
            · exact le_trans (by omega) (le_trans hstep (le_trans hcK (hlowR s hs2)))
          · intro k s ns hs hns
            rw [hfil] at hns
            cases k with
            | zero =>
              simp only [List.getElem?_cons_zero, Option.some.injEq] at hs hns
              subst hs
              subst hns
              exact List.mem_cons_self _ _
            | succ k =>
              simp only [List.getElem?_cons_succ] at hs hns
              exact List.mem_cons_of_mem _
                (List.mem_append.mpr (Or.inr (hmemR k s ns hs hns)))

/-- The namespace map assigns index idx + k + 1 to the k-th non-empty
namespace when namespace names are distinct. -/
theorem lookupNsIndex_aux :
    ∀ (data : PData) (idx k : Nat) (ns : List Nat × List (List Nat × NVSValue)),
      (data.map Prod.fst).Nodup →
      (nonemptyNS data)[k]? = some ns →
      lookupNsIndex (buildNamespaceMapAux data idx) ns.1 = idx + k + 1 := by
  intro data
  induction data with
  | nil =>
    intro idx k ns hnd hns
    simp [nonemptyNS] at hns
  | cons nsp rest ih =>
    intro idx k ns hnd hns
    obtain ⟨nm, es⟩ := nsp
    simp only [List.map_cons, List.nodup_cons] at hnd
    by_cases hemp : es = []
    · have hfil : nonemptyNS ((nm, es) :: rest) = nonemptyNS rest := by
        subst hemp
        rfl
      have haux : buildNamespaceMapAux ((nm, es) :: rest) idx
          = buildNamespaceMapAux rest idx := by
        simp only [buildNamespaceMapAux]
        rw [if_neg (fun h => h hemp)]
      rw [hfil] at hns
      rw [haux]
      exact ih idx k ns hnd.2 hns
    · have hfil : nonemptyNS ((nm, es) :: rest) = (nm, es) :: nonemptyNS rest := by
        cases es with
        | nil => exact absurd rfl hemp
        | cons a l => rfl
      have haux : buildNamespaceMapAux ((nm, es) :: rest) idx
          = (nm, idx + 1) :: buildNamespaceMapAux rest (idx + 1) := by
        simp only [buildNamespaceMapAux]
        rw [if_pos hemp]
      rw [hfil] at hns
      rw [haux]
      cases k with
      | zero =>
        simp only [List.getElem?_cons_zero, Option.some.injEq] at hns
        subst hns
        simp [lookupNsIndex]
      | succ k =>
        simp only [List.getElem?_cons_succ] at hns
        have htail : ns ∈ nonemptyNS rest := by
          rcases Nat.lt_or_ge k (nonemptyNS rest).length with h | h
          · rw [List.getElem?_eq_getElem h] at hns
            cases hns
            exact List.getElem_mem h
          · rw [List.getElem?_eq_none h] at hns
            cases hns
        have hmemrest : ns.1 ∈ rest.map Prod.fst := by
          refine List.mem_map_of_mem Prod.fst ?_
          exact (List.mem_filter.mp htail).1
        have hne : ¬ nm = ns.1 := by
          intro h
          exact hnd.1 (h ▸ hmemrest)
        simp only [lookupNsIndex]
        rw [if_neg hne]
        rw [ih (idx + 1) k ns hnd.2 hns]
        omega

set_option maxRecDepth 10000 in
/-- C3 counterexample: the continuation slot of the string value hi
(page-0 slot 3, byte offset 128) has a first byte of 0x68, not 0xFF,
yet its bytes 4..7 are the erased 0xFF values, which are not the
CRC32 of the 28-byte window of that slot: taken literally over every
32-byte slot, the claim fails on payload continuation slots. -/
theorem c3_counterexample :
    (generate [([110], [([107], .str [104, 105])])] 24576).map (fun img =>
        (img.readByte 128, readBytes img.log 132 4,
          readBytes img.log 132 4 == le4 (calculateCRC32 (readBytes img.log 128 4
            ++ readBytes img.log 136 16 ++ readBytes img.log 152 8))))
      = .ok (104, [255, 255, 255, 255], false) := by decide

/-- C3 amended: in every image generate returns, every slot at which
an entry record was placed (the header slot of each entry; the ghost
layout lists them) stores at offsets 4..7 the little-endian CRC32 of
the 28-byte window formed by the slot bytes 0..3 and 8..31 as they
read back from the final image. -/
theorem c3_entry_slot_crc (data : PData) (partitionSize : Nat) (img : Image)
    (hpsize : PAGE_SIZE ≤ partitionSize)
    (hok : generate data partitionSize = .ok img) :
    ∀ pe ∈ placements data partitionSize,
      readBytes img.log (slotOff pe.1 pe.2.1 + 4) 4 =
        le4 (calculateCRC32 (readBytes img.log (slotOff pe.1 pe.2.1) 4
          ++ readBytes img.log (slotOff pe.1 pe.2.1 + 8) 16
          ++ readBytes img.log (slotOff pe.1 pe.2.1 + 24) 8)) := by
  intro pe hpe
  unfold generate at hok
  simp only [] at hok
  have hN : (partitionSize / PAGE_SIZE) * PAGE_SIZE ≤ partitionSize :=
    Nat.div_mul_le_self _ _
  have hnp0 : 0 < partitionSize / PAGE_SIZE :=
    Nat.div_pos hpsize (by simp [PAGE_SIZE])
  cases hw : writeNamespaces partitionSize
      (writeByte partitionSize (writeByte partitionSize [] 32 170) 33 170) 0 1
      (partitionSize / PAGE_SIZE) (buildNamespaceMap data) data with
  | error e => rw [hw] at hok; cases hok
  | ok t =>
    obtain ⟨m2, p2, i2⟩ := t
    rw [hw] at hok
    simp only [] at hok
    obtain ⟨ps, hlay, hple, hp2, hi21, hi22, hcur, hpres, hseal, hpw⟩ :=
      writeNamespaces_main partitionSize (partitionSize / PAGE_SIZE)
        (buildNamespaceMap data) hN data _ 0 1 m2 p2 i2 hw hnp0 (le_refl 1) (by omega)
    have hps : placements data partitionSize = ps := by
      unfold placements
      rw [hlay]
    rw [hps] at hpe
    obtain ⟨hb1, hb2, hb3, hb4, hb5, hb6, hseal2⟩ := hseal pe hpe
    rw [if_pos (show 0 < i2 by omega)] at hok
    cases hok
    have hagree : ∀ r, r < 32 →
        readByte (finalizePage partitionSize m2 p2 i2) (slotOff pe.1 pe.2.1 + r)
          = readByte m2 (slotOff pe.1 pe.2.1 + r) := by
      intro r hr
      refine readByte_finalizePage_outside _ _ _ _ _ ?_
      simp only [slotOff, PAGE_SIZE, ENTRY_SIZE] at hb4 hb5 ⊢
      omega
    have := slotSealed_mono _ _ _ _ _ hagree (by
        intro ht hlb hjs r hr
        refine readByte_finalizePage_outside _ _ _ _ _ ?_
        have hw := hb6 ht hlb hjs
        simp only [slotOff, PAGE_SIZE, ENTRY_SIZE] at hb4 hw ⊢
        omega) hseal2
    exact this.2.2.1

set_option maxRecDepth 10000 in
/-- C3 witness at a concrete input: the namespace-definition entry of
the single namespace sits at page 0 slot 1 and satisfies the CRC
relation in the final image. -/
theorem c3_witness :
    (PAGE_SIZE ≤ 24576 ∧
      generate [([97], [([107], .int 5)])] 24576
        = .ok (genImg [([97], [([107], .int 5)])] 24576) ∧
      ((0, 1, (⟨0, 1, 1, [97], [1]⟩ : Entry))
        ∈ placements [([97], [([107], .int 5)])] 24576)) ∧
    readBytes (genImg [([97], [([107], .int 5)])] 24576).log (slotOff 0 1 + 4) 4 =
      le4 (calculateCRC32
        (readBytes (genImg [([97], [([107], .int 5)])] 24576).log (slotOff 0 1) 4
          ++ readBytes (genImg [([97], [([107], .int 5)])] 24576).log (slotOff 0 1 + 8) 16
          ++ readBytes (genImg [([97], [([107], .int 5)])] 24576).log (slotOff 0 1 + 24) 8)) :=
  ⟨⟨by decide, by decide, by decide⟩,
    c3_entry_slot_crc [([97], [([107], .int 5)])] 24576 _ (by decide) (by decide)
      (0, 1, (⟨0, 1, 1, [97], [1]⟩ : Entry)) (by decide)⟩

/-- C6 amended: in every image generate returns from data with
distinct namespace names, none of them the proto accessor name (a JS
plain-object store at that name records nothing, so the index read
back is not a number and the stored byte degenerates to 0), and at
most 255 non-empty namespaces, the namespace-definition entries
appear at strictly increasing slot offsets, one per namespace with a
non-empty value map in insertion order, each carrying namespace byte
0, type byte 1, span byte 1, the key field of the namespace name,
and index byte k + 1 for the k-th such namespace. -/
theorem c6_namespace_order (data : PData) (partitionSize : Nat) (img : Image)
    (hpsize : PAGE_SIZE ≤ partitionSize)
    (hok : generate data partitionSize = .ok img)
    (hnodup : (data.map Prod.fst).Nodup)
    (_hproto : data.all (fun p => decide (¬ p.1 = protoName)) = true)
    (hcount : (nonemptyNS data).length ≤ 255) :
    ∃ slots : List (Nat × Nat),
      slots.length = (nonemptyNS data).length ∧
      List.Pairwise (fun a b : Nat × Nat => slotOff a.1 a.2 < slotOff b.1 b.2) slots ∧
      ∀ (k : Nat) (s : Nat × Nat) (ns : List Nat × List (List Nat × NVSValue)),
        slots[k]? = some s → (nonemptyNS data)[k]? = some ns →
        readByte img.log (slotOff s.1 s.2) = 0 ∧
        readByte img.log (slotOff s.1 s.2 + 1) = 1 ∧
        readByte img.log (slotOff s.1 s.2 + 2) = 1 ∧
        readBytes img.log (slotOff s.1 s.2 + 8) 16 = keyField ns.1 ∧
        readByte img.log (slotOff s.1 s.2 + 24) = k + 1 := by
  unfold generate at hok
  simp only [] at hok
  have hN : (partitionSize / PAGE_SIZE) * PAGE_SIZE ≤ partitionSize :=
    Nat.div_mul_le_self _ _
  have hnp0 : 0 < partitionSize / PAGE_SIZE :=
    Nat.div_pos hpsize (by simp [PAGE_SIZE])
  cases hw : writeNamespaces partitionSize
      (writeByte partitionSize (writeByte partitionSize [] 32 170) 33 170) 0 1
      (partitionSize / PAGE_SIZE) (buildNamespaceMap data) data with
  | error e => rw [hw] at hok; cases hok
  | ok t =>
    obtain ⟨m2, p2, i2⟩ := t
    rw [hw] at hok
    simp only [] at hok
    obtain ⟨ps, hlay, hple, hp2, hi21, hi22, hcur, hpres, hseal, hpw⟩ :=
      writeNamespaces_main partitionSize (partitionSize / PAGE_SIZE)
        (buildNamespaceMap data) hN data _ 0 1 m2 p2 i2 hw hnp0 (le_refl 1) (by omega)
    obtain ⟨slots, hslen, hspw, hslow, hsmem⟩ :=
      layoutNamespaces_slots (partitionSize / PAGE_SIZE) (buildNamespaceMap data)
        data 0 1 ps p2 i2 hlay (le_refl 1) (by omega)
    rw [if_pos (show 0 < i2 by omega)] at hok
    cases hok
    refine ⟨slots, hslen, hspw.imp (fun h => by omega), ?_⟩
    intro k s ns hks hkns
    have hk : k < (nonemptyNS data).length := by
      rcases Nat.lt_or_ge k (nonemptyNS data).length with h | h
      · exact h
      · rw [List.getElem?_eq_none h] at hkns
        cases hkns
    have hpe := hsmem k s ns hks hkns
    obtain ⟨hb1, hb2, hb3, hb4, hb5, hb6, hseal2⟩ := hseal _ hpe
    have hb2a : 1 ≤ s.2 := hb2
    have hb3a : s.2 ≤ 126 := hb3
    have hb4a : slotOff 0 1 ≤ slotOff s.1 s.2 := hb4
    have hb5a : slotOff s.1 s.2 + 32 ≤ slotOff p2 i2 := hb5
    have hseal2a : SlotSealed m2 s.1 s.2 (⟨0, 0x01, 1, ns.1,
        [lookupNsIndex (buildNamespaceMap data) ns.1]⟩ : Entry) := hseal2
    have hagree : ∀ r, r < 32 →
        readByte (finalizePage partitionSize m2 p2 i2) (slotOff s.1 s.2 + r)
          = readByte m2 (slotOff s.1 s.2 + r) := by
      intro r hr
      refine readByte_finalizePage_outside _ _ _ _ _ ?_
      simp only [slotOff, PAGE_SIZE, ENTRY_SIZE] at hb4a hb5a ⊢
      omega
    obtain ⟨hh, hkey, hcrc, hdata, hstr⟩ := slotSealed_mono _ _ _ _ _ hagree
      (fun ht => absurd ht (show ¬ ((1 : Nat) = TYPE_STR) by decide)) hseal2a
    have hh2 : readBytes (finalizePage partitionSize m2 p2 i2)
        (slotOff s.1 s.2) 4 = [0, 1, 1, 255] := hh
    have hh4 := readBytes_four _ _ _ _ _ _ hh2
    have hlook : lookupNsIndex (buildNamespaceMap data) ns.1 = k + 1 := by
      have hx := lookupNsIndex_aux data 0 k ns hnodup hkns
      simpa [buildNamespaceMap] using hx
    have hd := hdata (show ¬((1 : Nat) = TYPE_STR ∨ (1 : Nat) = TYPE_BLOB) by decide)
      (show (1 : Nat) ≤ 8 by decide)
    have hd2 : readBytes (finalizePage partitionSize m2 p2 i2)
        (slotOff s.1 s.2 + 24) 1
          = [lookupNsIndex (buildNamespaceMap data) ns.1 % 256] := hd
    rw [hlook, Nat.mod_eq_of_lt (show k + 1 < 256 by omega)] at hd2
    exact ⟨hh4.1, hh4.2.1, hh4.2.2.1, hkey, readBytes_one _ _ _ hd2⟩

set_option maxRecDepth 10000 in
/-- C6 witness at a concrete two-namespace input: the theorem applies
and yields the ordered namespace-definition slots. -/
theorem c6_witness :
    (PAGE_SIZE ≤ 24576 ∧ generate c6Data 24576 = .ok (genImg c6Data 24576) ∧
      (c6Data.map Prod.fst).Nodup ∧
      c6Data.all (fun p => decide (¬ p.1 = protoName)) = true ∧
      (nonemptyNS c6Data).length ≤ 255) ∧
    (∃ slots : List (Nat × Nat),
      slots.length = (nonemptyNS c6Data).length ∧
      List.Pairwise (fun a b : Nat × Nat => slotOff a.1 a.2 < slotOff b.1 b.2) slots ∧
      ∀ (k : Nat) (s : Nat × Nat) (ns : List Nat × List (List Nat × NVSValue)),
        slots[k]? = some s → (nonemptyNS c6Data)[k]? = some ns →
        readByte (genImg c6Data 24576).log (slotOff s.1 s.2) = 0 ∧
        readByte (genImg c6Data 24576).log (slotOff s.1 s.2 + 1) = 1 ∧
        readByte (genImg c6Data 24576).log (slotOff s.1 s.2 + 2) = 1 ∧
        readBytes (genImg c6Data 24576).log (slotOff s.1 s.2 + 8) 16 = keyField ns.1 ∧
        readByte (genImg c6Data 24576).log (slotOff s.1 s.2 + 24) = k + 1) :=
  ⟨⟨by decide, by decide, by decide, by decide, by decide⟩,
    c6_namespace_order c6Data 24576 (genImg c6Data 24576)
      (by decide) (by decide) (by decide) (by decide) (by decide)⟩


theorem readBytes_length (m : Mem) (o n : Nat) : (readBytes m o n).length = n := by
  simp [readBytes]

theorem readBytes_split (m : Mem) (o a b : Nat) :
    readBytes m o (a + b) = readBytes m o a ++ readBytes m (o + a) b := by
  unfold readBytes
  apply List.ext_getElem
  · simp
  · intro j hj1 hj2
    simp only [List.length_map, List.length_range] at hj1
    by_cases hja : j < a
    · rw [List.getElem_append_left (by simp; omega)]
      simp only [List.getElem_map, List.getElem_range]
    · rw [List.getElem_append_right (by simp; omega)]
      simp only [List.getElem_map, List.getElem_range, List.length_map, List.length_range]
      have : o + a + (j - a) = o + j := by omega
      rw [this]

/-- The STR chunk-assembly loop reads the payload back contiguously
when the remaining chunk count covers the remaining bytes. -/
theorem assembleChunks_eq (M : Mem) (E L : Nat) :
    ∀ (k s r : Nat), r ≤ L → L - r ≤ k * 32 →
      assembleChunks M E L s r k = readBytes M (E + s * ENTRY_SIZE) (L - r) := by
  intro k
  induction k with
  | zero =>
    intro s r h1 h2
    have : L - r = 0 := by omega
    rw [this]
    rfl
  | succ k ih =>
    intro s r h1 h2
    simp only [assembleChunks]
    by_cases hsm : L - r ≤ 32
    · have hmin : min (L - r) ENTRY_SIZE = L - r := by
        simp only [ENTRY_SIZE]
        omega
      rw [hmin]
      rw [ih (s + 1) (r + (L - r)) (by omega) (by omega)]
      have hz : L - (r + (L - r)) = 0 := by omega
      rw [hz]
      have : readBytes M (E + (s + 1) * ENTRY_SIZE) 0 = [] := rfl
      rw [this, List.append_nil]
    · have hmin : min (L - r) ENTRY_SIZE = 32 := by
        simp only [ENTRY_SIZE]
        omega
      rw [hmin]
      rw [ih (s + 1) (r + 32) (by omega) (by omega)]
      have hsplit : L - r = 32 + (L - (r + 32)) := by omega
      conv =>
        rhs
        rw [hsplit]
      rw [readBytes_split]
      congr 1
      have : E + s * ENTRY_SIZE + 32 = E + (s + 1) * ENTRY_SIZE := by
        simp only [ENTRY_SIZE]
        omega
      rw [this]

theorem keyField_wf (key : List Nat) (h2 : key.length ≤ 15)
    (h3 : ∀ b ∈ key, b < 256) :
    keyField key = key ++ List.replicate (16 - key.length) 0 := by
  unfold keyField
  have htake : key.take 15 = key := List.take_of_length_le h2
  rw [htake]
  congr 1
  have hmap : key.map (fun b => b % 256) = key.map id := by
    apply List.map_congr_left
    intro b hb
    exact Nat.mod_eq_of_lt (h3 b hb)
  rw [hmap, List.map_id]

theorem findIdx_zero_append (key : List Nat) (h3 : ∀ b ∈ key, 0 < b) (tl : List Nat) :
    (key ++ 0 :: tl).findIdx? (fun b => b = 0) = some key.length := by
  induction key with
  | nil => simp [List.findIdx?]
  | cons a ks ih =>
    have ha : ¬ (a = 0) := by
      have := h3 a (List.mem_cons_self a ks)
      omega
    have ihr := ih (fun b hb => h3 b (List.mem_cons_of_mem a hb))
    simp only [List.cons_append, List.findIdx?_cons]
    rw [if_neg (by simpa using ha)]
    rw [List.findIdx?_succ, ihr]
    simp

theorem getUint16_of_readBytes (m : Mem) (o a b : Nat)
    (h : readBytes m o 2 = [a, b]) : getUint16 m o = a + 256 * b := by
  have h2 : readBytes m o 2 = [readByte m (o + 0), readByte m (o + 1)] := rfl
  rw [h2] at h
  simp only [List.cons.injEq, and_true] at h
  obtain ⟨h0, h1⟩ := h
  unfold getUint16
  have h0b : readByte m o = a := by simpa using h0
  rw [h0b, h1]

theorem getUint32_of_readBytes (m : Mem) (o a b c d : Nat)
    (h : readBytes m o 4 = [a, b, c, d]) :
    getUint32 m o = a + 256 * b + 65536 * c + 16777216 * d := by
  obtain ⟨h0, h1, h2, h3⟩ := readBytes_four m o a b c d h
  unfold getUint32
  rw [h0, h1, h2, h3]

theorem lookupAssocNat_map_update (x : Nat) (nm : List Nat) :
    ∀ t : List (Nat × List Nat), t.any (fun p => p.1 = x) = true →
      lookupAssocNat (t.map (fun p => if p.1 = x then (x, nm) else p)) x = some nm := by
  intro t
  induction t with
  | nil => intro h; simp at h
  | cons p t ih =>
    intro h
    obtain ⟨k, v⟩ := p
    simp only [List.map_cons]
    by_cases hp : k = x
    · have he : (if (k, v).1 = x then (x, nm) else (k, v)) = (x, nm) := if_pos hp
      rw [he]
      simp [lookupAssocNat]
    · have he : (if (k, v).1 = x then (x, nm) else (k, v)) = (k, v) := if_neg hp
      rw [he]
      simp only [lookupAssocNat]
      rw [if_neg hp]
      apply ih
      simp only [List.any_cons, Bool.or_eq_true, decide_eq_true_eq] at h
      rcases h with h | h
      · exact absurd h hp
      · exact h

theorem lookupAssocNat_append_last (x : Nat) (nm : List Nat) :
    ∀ t : List (Nat × List Nat), (∀ p ∈ t, ¬ p.1 = x) →
      lookupAssocNat (t ++ [(x, nm)]) x = some nm := by
  intro t
  induction t with
  | nil => intro h; simp [lookupAssocNat]
  | cons p t ih =>
    intro h
    obtain ⟨k, v⟩ := p
    simp only [List.cons_append, lookupAssocNat]
    rw [if_neg (h (k, v) (List.mem_cons_self _ _))]
    exact ih (fun q hq => h q (List.mem_cons_of_mem _ hq))

theorem lookupAssocNat_set_self (x : Nat) (nm : List Nat) (t : List (Nat × List Nat)) :
    lookupAssocNat (setAssocNat t x nm) x = some nm := by
  unfold setAssocNat
  by_cases hany : t.any (fun p => p.1 = x) = true
  · rw [if_pos hany]
    exact lookupAssocNat_map_update x nm t hany
  · rw [if_neg hany]
    apply lookupAssocNat_append_last
    intro p hp hc
    apply hany
    rw [List.any_eq_true]
    exact ⟨p, hp, by simpa using hc⟩

theorem ensureNs_present (d : PData) (nm : List Nat)
    (p0 : List Nat × List (List Nat × NVSValue)) (hp0 : p0 ∈ d) (hnm : p0.1 = nm) :
    ensureNs d nm = d := by
  unfold ensureNs
  rw [if_pos (List.any_eq_true.mpr ⟨p0, hp0, by simpa using hnm⟩)]

theorem ensureNs_absent (d : PData) (nm : List Nat) (h : ∀ p ∈ d, ¬ p.1 = nm) :
    ensureNs d nm = d ++ [(nm, [])] := by
  unfold ensureNs
  rw [if_neg (by
    intro hc
    rw [List.any_eq_true] at hc
    obtain ⟨p, hp, hpx⟩ := hc
    exact h p hp (by simpa using hpx))]

theorem setAssocKV_append (acc : List (List Nat × NVSValue)) (key : List Nat)
    (v : NVSValue) (h : ∀ q ∈ acc, ¬ q.1 = key) :
    setAssocKV acc key v = acc ++ [(key, v)] := by
  unfold setAssocKV
  rw [if_neg (by
    intro hc
    rw [List.any_eq_true] at hc
    obtain ⟨q, hq, hqx⟩ := hc
    exact h q hq (by simpa using hqx))]

theorem setKV_append_last (d : PData) (nm : List Nat)
    (acc : List (List Nat × NVSValue)) (key : List Nat) (v : NVSValue)
    (h : ∀ p ∈ d, ¬ p.1 = nm) :
    setKV (d ++ [(nm, acc)]) nm key v = d ++ [(nm, setAssocKV acc key v)] := by
  unfold setKV
  rw [List.map_append]
  congr 1
  · have hmap : d.map (fun p => if p.1 = nm then (p.1, setAssocKV p.2 key v) else p)
        = d.map id := by
      apply List.map_congr_left
      intro p hp
      rw [if_neg (h p hp)]
      rfl
    rw [hmap, List.map_id]
  · simp

theorem createEntry_data_bound (ns : Nat) (key : List Nat) (v : NVSValue) (e : Entry)
    (h : createEntry ns key v = .ok e) :
    ((e.type = TYPE_STR ∨ e.type = TYPE_BLOB) → e.data.length + 32 ≤ 32 * e.span) ∧
    (¬(e.type = TYPE_STR ∨ e.type = TYPE_BLOB) → e.data.length ≤ 8 ∧ e.span = 1) := by
  cases v with
  | str s =>
    simp only [createEntry] at h
    cases h
    constructor
    · intro _
      show (s ++ [0]).length + 32
          ≤ 32 * (1 + ((s ++ [0]).length + (ENTRY_SIZE - 1)) / ENTRY_SIZE)
      simp only [ENTRY_SIZE, List.length_append, List.length_cons, List.length_nil]
      omega
    · intro hn
      exact absurd (Or.inl rfl) hn
  | int n =>
    simp only [createEntry] at h
    by_cases h1 : 0 ≤ n ∧ n ≤ 255
    · rw [if_pos h1] at h
      cases h
      constructor
      · intro ho
        rcases ho with ho | ho
        · exact absurd ho (show ¬ ((TYPE_U8 : Nat) = TYPE_STR) by decide)
        · exact absurd ho (show ¬ ((TYPE_U8 : Nat) = TYPE_BLOB) by decide)
      · intro _
        exact ⟨by simp, rfl⟩
    · rw [if_neg h1] at h
      by_cases h2 : 0 ≤ n ∧ n ≤ 65535
      · rw [if_pos h2] at h
        cases h
        constructor
        · intro ho
          rcases ho with ho | ho
          · exact absurd ho (show ¬ ((TYPE_U16 : Nat) = TYPE_STR) by decide)
          · exact absurd ho (show ¬ ((TYPE_U16 : Nat) = TYPE_BLOB) by decide)
        · intro _
          exact ⟨by simp [le2], rfl⟩
      · rw [if_neg h2] at h
        cases h
        constructor
        · intro ho
          rcases ho with ho | ho
          · exact absurd ho (show ¬ ((TYPE_U32 : Nat) = TYPE_STR) by decide)
          · exact absurd ho (show ¬ ((TYPE_U32 : Nat) = TYPE_BLOB) by decide)
        · intro _
          exact ⟨by simp [le4], rfl⟩
  | bytes b => cases h
  | float => cases h

theorem layoutNamespaces_cursor (numPages : Nat) (nsMap : List (List Nat × Nat)) :
    ∀ (data : PData) (p i : Nat) (ps : List (Nat × Nat × Entry)) (p2 i2 : Nat),
      layoutNamespaces p i numPages nsMap data = .ok (ps, p2, i2) →
      1 ≤ i → i ≤ 125 →
      slotOff p i ≤ slotOff p2 i2 ∧ 1 ≤ i2 ∧ i2 ≤ 125 := by
  intro data
  induction data with
  | nil =>
    intro p i ps p2 i2 hok h1 h2
    simp only [layoutNamespaces] at hok
    cases hok
    exact ⟨le_refl _, h1, h2⟩
  | cons nsp rest ih =>
    intro p i ps p2 i2 hok h1 h2
    obtain ⟨nm, es⟩ := nsp
    simp only [layoutNamespaces] at hok
    by_cases hemp : es = []
    · rw [if_pos hemp] at hok
      exact ih _ _ _ _ _ hok h1 h2
    · rw [if_neg hemp] at hok
      cases hlayK : layoutKVs p (i + 1) numPages (lookupNsIndex nsMap nm) es with
      | error e => rw [hlayK] at hok; cases hok
      | ok t =>
        obtain ⟨psK, pK, iK⟩ := t
        rw [hlayK] at hok
        simp only [] at hok
        obtain ⟨hcK, hK1, hK2, hKne⟩ :=
          layoutKVs_cursor numPages _ es p (i + 1) psK pK iK hlayK (by omega) (by omega)
        have hK125 := hKne hemp
        cases hlayR : layoutNamespaces pK iK numPages nsMap rest with
        | error e => rw [hlayR] at hok; cases hok
        | ok t2 =>
          obtain ⟨psR, pR, iR⟩ := t2
          obtain ⟨hcR, hR1, hR2⟩ := ih _ _ _ _ _ hlayR hK1 hK125
          rw [hlayR] at hok
          cases hok
          refine ⟨?_, hR1, hR2⟩
          refine le_trans ?_ (le_trans hcK hcR)
          simp only [slotOff, PAGE_SIZE, ENTRY_SIZE]
          omega

/-- Every byte writeEntry touches lies below the end of the entry
span: bytes at or past slot i + span are unchanged. -/
theorem readByte_writeEntry_above (size : Nat) (m : Mem) (p i : Nat) (e : Entry)
    (o2 : Nat) (hsp : 1 ≤ e.span)
    (hstr : (e.type = TYPE_STR ∨ e.type = TYPE_BLOB) → e.data.length + 32 ≤ 32 * e.span)
    (hnum : ¬(e.type = TYPE_STR ∨ e.type = TYPE_BLOB) → e.data.length ≤ 8)
    (h : slotOff p (i + e.span) ≤ o2) :
    readByte (writeEntry size m p i e) o2 = readByte m o2 := by
  simp only [slotOff, PAGE_SIZE, ENTRY_SIZE] at h
  have hkl : (e.key.take 15).length ≤ 15 := by
    rw [List.length_take]
    omega
  unfold writeEntry
  simp only []
  rw [readByte_setUint32_outside _ _ _ _ _ (by
      simp only [PAGE_SIZE, ENTRY_SIZE]
      omega)]
  by_cases ht : e.type = TYPE_STR ∨ e.type = TYPE_BLOB
  · rw [if_pos ht]
    have hd := hstr ht
    rw [readByte_writeChunks_outside _ _ _ _ _ _ _ (Or.inr (by
        simp only [PAGE_SIZE, ENTRY_SIZE]
        omega))]
    rw [readByte_setUint16_outside _ _ _ _ _ (by
        simp only [PAGE_SIZE, ENTRY_SIZE]
        omega)]
    rw [readByte_setBytes_outside _ _ _ _ _ (by
        simp only [PAGE_SIZE, ENTRY_SIZE, List.length_replicate]
        omega)]
    rw [readByte_setBytes_outside _ _ _ _ _ (by
        simp only [PAGE_SIZE, ENTRY_SIZE]
        omega)]
    rw [readByte_writeByte_ne _ _ _ _ _ (by
        simp only [PAGE_SIZE, ENTRY_SIZE]
        omega)]
    rw [readByte_writeByte_ne _ _ _ _ _ (by
        simp only [PAGE_SIZE, ENTRY_SIZE]
        omega)]
    rw [readByte_writeByte_ne _ _ _ _ _ (by
        simp only [PAGE_SIZE, ENTRY_SIZE]
        omega)]
    rw [readByte_writeByte_ne _ _ _ _ _ (by
        simp only [PAGE_SIZE, ENTRY_SIZE]
        omega)]
  · rw [if_neg ht]
    have hd := hnum ht
    rw [readByte_setBytes_outside _ _ _ _ _ (by
        simp only [PAGE_SIZE, ENTRY_SIZE]
        omega)]
    rw [readByte_setBytes_outside _ _ _ _ _ (by
        simp only [PAGE_SIZE, ENTRY_SIZE, List.length_replicate]
        omega)]
    rw [readByte_setBytes_outside _ _ _ _ _ (by
        simp only [PAGE_SIZE, ENTRY_SIZE]
        omega)]
    rw [readByte_writeByte_ne _ _ _ _ _ (by
        simp only [PAGE_SIZE, ENTRY_SIZE]
        omega)]
    rw [readByte_writeByte_ne _ _ _ _ _ (by
        simp only [PAGE_SIZE, ENTRY_SIZE]
        omega)]
    rw [readByte_writeByte_ne _ _ _ _ _ (by
        simp only [PAGE_SIZE, ENTRY_SIZE]
        omega)]
    rw [readByte_writeByte_ne _ _ _ _ _ (by
        simp only [PAGE_SIZE, ENTRY_SIZE]
        omega)]

/-- Along a run of the key-value loop that stays on its page, bytes
at or past the final cursor are untouched. -/
theorem writeKVs_high (size numPages nsIndex : Nat) (hN : numPages * PAGE_SIZE ≤ size) :
    ∀ (kvs : List (List Nat × NVSValue)) (m : Mem) (p i : Nat) (m2 : Mem) (i2 : Nat),
      writeKVs size m p i numPages nsIndex kvs = .ok (m2, p, i2) →
      p < numPages → 1 ≤ i → i ≤ 126 →
      ∀ o, slotOff p i2 ≤ o → readByte m2 o = readByte m o := by
  intro kvs
  induction kvs with
  | nil =>
    intro m p i m2 i2 hok hp h1 h2 o ho
    simp only [writeKVs] at hok
    cases hok
    rfl
  | cons kv rest ih =>
    intro m p i m2 i2 hok hp h1 h2 o ho
    obtain ⟨key, value⟩ := kv
    simp only [writeKVs] at hok
    cases hce : createEntry nsIndex key value with
    | error e => rw [hce] at hok; cases hok
    | ok entry =>
      rw [hce] at hok
      simp only [] at hok
      have hspan := createEntry_span_pos _ _ _ _ hce
      have hbound := createEntry_data_bound _ _ _ _ hce
      by_cases hfull : ENTRIES_PER_PAGE ≤ i + entry.span
      · rw [if_pos hfull] at hok
        by_cases hnp : numPages ≤ p + 1
        · rw [if_pos hnp] at hok; cases hok
        · rw [if_neg hnp] at hok
          obtain ⟨ps2, hlay2, hple2, hrest⟩ :=
            writeKVs_main size numPages nsIndex hN rest _ (p + 1) 1 m2 p i2 hok
              (by omega) (by omega) (by omega)
          omega
      · rw [if_neg hfull] at hok
        simp only [ENTRIES_PER_PAGE] at hfull
        obtain ⟨ps2, hlay2, hple2, hp22, hi21, hi22, hnil2, hne2, hcur2, hrest⟩ :=
          writeKVs_main size numPages nsIndex hN rest _ p (i + entry.span) m2 p i2 hok
            hp (by omega) (by omega)
        rw [ih _ _ _ _ _ hok hp (by omega) (by omega) o ho]
        exact readByte_writeEntry_above size m p i entry o hspan hbound.1
          (fun hnt => (hbound.2 hnt).1) (le_trans hcur2 ho)

/-- Along a run of the namespace loop that stays on its page, bytes
at or past the final cursor are untouched. -/
theorem writeNamespaces_high (size numPages : Nat) (nsMap : List (List Nat × Nat))
    (hN : numPages * PAGE_SIZE ≤ size) :
    ∀ (data : PData) (m : Mem) (p i : Nat) (m2 : Mem) (i2 : Nat),
      writeNamespaces size m p i numPages nsMap data = .ok (m2, p, i2) →
      p < numPages → 1 ≤ i → i ≤ 125 →
      ∀ o, slotOff p i2 ≤ o → readByte m2 o = readByte m o := by
  intro data
  induction data with
  | nil =>
    intro m p i m2 i2 hok hp h1 h2 o ho
    simp only [writeNamespaces] at hok
    cases hok
    rfl
  | cons nsp rest ih =>
    intro m p i m2 i2 hok hp h1 h2 o ho
    obtain ⟨nm, es⟩ := nsp
    simp only [writeNamespaces] at hok
    by_cases hemp : es = []
    · rw [if_pos hemp] at hok
      exact ih _ _ _ _ _ hok hp h1 h2 o ho
    · rw [if_neg hemp] at hok
      cases hwk : writeKVs size
          (writeEntry size m p i ⟨0, 0x01, 1, nm, [lookupNsIndex nsMap nm]⟩)
          p (i + 1) numPages (lookupNsIndex nsMap nm) es with
      | error e => rw [hwk] at hok; cases hok
      | ok t =>
        obtain ⟨mK, pK, iK⟩ := t
        rw [hwk] at hok
        obtain ⟨psK, hlayK, hpleK, hpK, hiK1, hiK2, hnilK, hneK, hcurK, hrestK⟩ :=
          writeKVs_main size numPages _ hN es _ p (i + 1) mK pK iK hwk hp
            (by omega) (by omega)
        obtain ⟨psR, hlayR, hpleR, hpR2, hiR1, hiR2, hcurR, hrestR⟩ :=
          writeNamespaces_main size numPages nsMap hN rest mK pK iK m2 p i2 hok
            hpK hiK1 (hneK hemp)
        have hpKp : pK = p := by omega
        rw [hpKp] at hwk hok hcurK hcurR
        rw [ih _ _ _ _ _ hok hp hiK1 (hneK hemp) o ho]
        have hoK : slotOff p iK ≤ o := le_trans hcurR ho
        rw [writeKVs_high size numPages _ hN es _ p (i + 1) mK iK hwk hp
          (by omega) (by omega) o hoK]
        exact readByte_writeEntry_above size m p i _ o (le_refl 1)
          (fun hc => absurd hc (by
            intro hc2
            rcases hc2 with hc2 | hc2
            · exact absurd hc2 (show ¬ ((1 : Nat) = TYPE_STR) by decide)
            · exact absurd hc2 (show ¬ ((1 : Nat) = TYPE_BLOB) by decide)))
          (fun _ => by
            show (1 : Nat) ≤ 8
            decide)
          (le_trans (le_trans (by
            simp only [slotOff, PAGE_SIZE, ENTRY_SIZE]
            omega) hcurK) hoK)

theorem nonemptyNS_self (data : PData) (h : ∀ p ∈ data, ¬ p.2 = []) :
    nonemptyNS data = data := by
  unfold nonemptyNS
  apply List.filter_eq_self.mpr
  intro p hp
  cases hp2 : p.2 with
  | nil => exact absurd hp2 (h p hp)
  | cons a l => rfl

/-- Decoding one namespace-definition entry: the slot walk consumes
one slot and records the namespace name under its index. -/
theorem parse_step_nsdef (M : Mem) (x j : Nat) (nm : List Nat)
    (hfull : SlotSealed M 0 j (⟨0, 0x01, 1, nm, [x]⟩ : Entry))
    (hj1 : 1 ≤ j) (hj2 : j ≤ 125)
    (hx1 : 1 ≤ x) (hx2 : x ≤ 254)
    (hnm1 : ¬ nm = []) (hnm2 : nm.length ≤ 15) (hnm3 : ∀ b ∈ nm, 0 < b ∧ b < 256)
    (stN : List (Nat × List Nat)) (stD : PData) (fuel : Nat) :
    parseEntriesLoop M 0 (fuel + 1) j ⟨stN, stD⟩
      = parseEntriesLoop M 0 fuel (j + 1) ⟨setAssocNat stN x nm, ensureNs stD nm⟩ := by
  obtain ⟨hhdr, hkeyF0, hcrc, hnumeric, hstr⟩ := hfull
  have hb := readBytes_four _ _ _ _ _ _ hhdr
  have hb0 : readByte M (0 + 32 + j * ENTRY_SIZE) = 0 := hb.1
  have hb1 : readByte M (0 + 32 + j * ENTRY_SIZE + 1) = 1 := hb.2.1
  have hb2 : readByte M (0 + 32 + j * ENTRY_SIZE + 2) = 1 := hb.2.2.1
  have hkeyF : readBytes M (0 + 32 + j * ENTRY_SIZE + 8) 16 = keyField nm := hkeyF0
  have hnum2 : readBytes M (0 + 32 + j * ENTRY_SIZE + 24) 1 = [x % 256] :=
    hnumeric (show ¬ ((1 : Nat) = TYPE_STR ∨ (1 : Nat) = TYPE_BLOB) by decide)
      (show (1 : Nat) ≤ 8 by decide)
  rw [Nat.mod_eq_of_lt (show x < 256 by omega)] at hnum2
  have hidx : readByte M (0 + 32 + j * ENTRY_SIZE + 24) = x := readBytes_one _ _ _ hnum2
  have hnmlen : 0 < nm.length := by
    cases nm with
    | nil => exact absurd rfl hnm1
    | cons a l => simp
  simp only [parseEntriesLoop]
  rw [if_neg (show ¬ ENTRIES_PER_PAGE ≤ j by simp only [ENTRIES_PER_PAGE]; omega)]
  rw [hb0]
  rw [if_neg (show ¬ (0 : Nat) = 255 by decide)]
  rw [hb1, hb2, hkeyF, hidx]
  rw [keyField_wf nm hnm2 (fun b hbm => (hnm3 b hbm).2)]
  have hrep : List.replicate (16 - nm.length) 0 = 0 :: List.replicate (15 - nm.length) 0 := by
    have h16 : 16 - nm.length = (15 - nm.length) + 1 := by omega
    rw [h16, List.replicate_succ]
  rw [hrep]
  simp only [findIdx_zero_append nm (fun b hbm => (hnm3 b hbm).1), and_self, if_true]
  rw [if_pos hnmlen]
  rw [List.take_left]

/-- Decoding one key-value entry: the slot walk consumes the span of
the entry and stores the original value back under the original key
in the namespace the index byte resolves to. -/
theorem parse_step_kv (M : Mem) (x j : Nat) (key : List Nat) (v : NVSValue) (e : Entry)
    (he : createEntry x key v = .ok e)
    (hfull : SlotSealed M 0 j e)
    (hj1 : 1 ≤ j) (hjs : j + e.span ≤ 125)
    (hx1 : 1 ≤ x) (hx2 : x ≤ 254)
    (hk1 : ¬ key = []) (hk2 : key.length ≤ 15) (hk3 : ∀ b ∈ key, 0 < b ∧ b < 256)
    (hval : wfVal v = true)
    (stN : List (Nat × List Nat)) (stD : PData) (nm : List Nat)
    (hlook : lookupAssocNat stN x = some nm) (hnm : ¬ nm = [])
    (fuel : Nat) :
    parseEntriesLoop M 0 (fuel + 1) j ⟨stN, stD⟩
      = parseEntriesLoop M 0 fuel (j + e.span)
          ⟨stN, setKV (ensureNs stD nm) nm key v⟩ := by
  have hklen : 0 < key.length := by
    cases key with
    | nil => exact absurd rfl hk1
    | cons a l => simp
  have hrep : List.replicate (16 - key.length) 0
      = 0 :: List.replicate (15 - key.length) 0 := by
    have h16 : 16 - key.length = (15 - key.length) + 1 := by omega
    rw [h16, List.replicate_succ]
  cases v with
  | float => simp [wfVal] at hval
  | bytes b => simp [wfVal] at hval
  | int n =>
    have hn : 0 ≤ n ∧ n < 4294967296 := by
      simp only [wfVal, Bool.and_eq_true, decide_eq_true_eq] at hval
      exact hval
    simp only [createEntry] at he
    by_cases h1 : 0 ≤ n ∧ n ≤ 255
    · rw [if_pos h1] at he
      cases he
      obtain ⟨hhdr, hkeyF0, hcrc, hnumeric, hstr⟩ := hfull
      have hb := readBytes_four _ _ _ _ _ _ hhdr
      have hb0 : readByte M (0 + 32 + j * ENTRY_SIZE) = x % 256 := hb.1
      rw [Nat.mod_eq_of_lt (show x < 256 by omega)] at hb0
      have hb1 : readByte M (0 + 32 + j * ENTRY_SIZE + 1) = 1 := hb.2.1
      have hb2 : readByte M (0 + 32 + j * ENTRY_SIZE + 2) = 1 := hb.2.2.1
      have hkeyF : readBytes M (0 + 32 + j * ENTRY_SIZE + 8) 16 = keyField key := hkeyF0
      have hdat : readBytes M (0 + 32 + j * ENTRY_SIZE + 24) 1 = [n.toNat % 256] :=
        hnumeric (show ¬ ((1 : Nat) = TYPE_STR ∨ (1 : Nat) = TYPE_BLOB) by decide)
          (show (1 : Nat) ≤ 8 by decide)
      rw [Nat.mod_eq_of_lt (show n.toNat < 256 by omega)] at hdat
      have hbyte : readByte M (0 + 32 + j * ENTRY_SIZE + 24) = n.toNat :=
        readBytes_one _ _ _ hdat
      simp only [parseEntriesLoop]
      rw [if_neg (show ¬ ENTRIES_PER_PAGE ≤ j by simp only [ENTRIES_PER_PAGE]; omega)]
      rw [hb0]
      rw [if_neg (show ¬ x = 255 by omega)]
      rw [hb1, hb2, hkeyF, hbyte]
      rw [keyField_wf key hk2 (fun b hbm => (hk3 b hbm).2)]
      rw [hrep]
      simp only [findIdx_zero_append key (fun b hbm => (hk3 b hbm).1), and_self,
        if_true, true_and]
      rw [if_neg (show ¬ x = 0 by omega)]
      simp only [hlook]
      rw [if_neg hnm]
      rw [if_pos (show (1 : Nat) = TYPE_U8 from rfl)]
      rw [if_pos hklen]
      rw [List.take_left]
      rw [Int.toNat_of_nonneg h1.1]
    · rw [if_neg h1] at he
      by_cases h2 : 0 ≤ n ∧ n ≤ 65535
      · rw [if_pos h2] at he
        cases he
        obtain ⟨hhdr, hkeyF0, hcrc, hnumeric, hstr⟩ := hfull
        have hb := readBytes_four _ _ _ _ _ _ hhdr
        have hb0 : readByte M (0 + 32 + j * ENTRY_SIZE) = x % 256 := hb.1
        rw [Nat.mod_eq_of_lt (show x < 256 by omega)] at hb0
        have hb1 : readByte M (0 + 32 + j * ENTRY_SIZE + 1) = 2 := hb.2.1
        have hb2 : readByte M (0 + 32 + j * ENTRY_SIZE + 2) = 1 := hb.2.2.1
        have hkeyF : readBytes M (0 + 32 + j * ENTRY_SIZE + 8) 16 = keyField key := hkeyF0
        have hdat : readBytes M (0 + 32 + j * ENTRY_SIZE + 24) 2
            = List.map (fun b => b % 256) (le2 n.toNat) :=
          hnumeric (show ¬ ((2 : Nat) = TYPE_STR ∨ (2 : Nat) = TYPE_BLOB) by decide)
            (show (2 : Nat) ≤ 8 by decide)
        have hdat2 : readBytes M (0 + 32 + j * ENTRY_SIZE + 24) 2
            = [n.toNat % 256, n.toNat / 256 % 256] := by
          rw [hdat]
          simp only [le2, List.map_cons, List.map_nil, List.cons.injEq, and_true]
          exact ⟨by omega, by omega⟩
        have hu16 := getUint16_of_readBytes _ _ _ _ hdat2
        have hu16b : getUint16 M (0 + 32 + j * ENTRY_SIZE + 24) = n.toNat := by
          rw [hu16]
          omega
        simp only [parseEntriesLoop]
        rw [if_neg (show ¬ ENTRIES_PER_PAGE ≤ j by simp only [ENTRIES_PER_PAGE]; omega)]
        rw [hb0]
        rw [if_neg (show ¬ x = 255 by omega)]
        rw [hb1, hb2, hkeyF, hu16b]
        rw [keyField_wf key hk2 (fun b hbm => (hk3 b hbm).2)]
        rw [hrep]
        simp only [findIdx_zero_append key (fun b hbm => (hk3 b hbm).1)]
        rw [if_neg (show ¬ ((2 : Nat) = 0x01 ∧ x = 0) by
          intro hc
          exact absurd hc.1 (by decide))]
        simp only [hlook]
        rw [if_neg hnm]
        rw [if_neg (show ¬ (2 : Nat) = TYPE_I8 by decide)]
        rw [if_neg (show ¬ (2 : Nat) = TYPE_U8 by decide)]
        rw [if_pos (show (2 : Nat) = TYPE_U16 from rfl)]
        rw [if_pos hklen]
        rw [List.take_left]
        rw [Int.toNat_of_nonneg h2.1]
      · rw [if_neg h2] at he
        cases he
        obtain ⟨hhdr, hkeyF0, hcrc, hnumeric, hstr⟩ := hfull
        have hb := readBytes_four _ _ _ _ _ _ hhdr
        have hb0 : readByte M (0 + 32 + j * ENTRY_SIZE) = x % 256 := hb.1
        rw [Nat.mod_eq_of_lt (show x < 256 by omega)] at hb0
        have hb1 : readByte M (0 + 32 + j * ENTRY_SIZE + 1) = 4 := hb.2.1
        have hb2 : readByte M (0 + 32 + j * ENTRY_SIZE + 2) = 1 := hb.2.2.1
        have hkeyF : readBytes M (0 + 32 + j * ENTRY_SIZE + 8) 16 = keyField key := hkeyF0
        have hdat : readBytes M (0 + 32 + j * ENTRY_SIZE + 24) 4
            = List.map (fun b => b % 256) (le4 (n.emod 4294967296).toNat) :=
          hnumeric (show ¬ ((4 : Nat) = TYPE_STR ∨ (4 : Nat) = TYPE_BLOB) by decide)
            (show (4 : Nat) ≤ 8 by decide)
        have hdat2 : readBytes M (0 + 32 + j * ENTRY_SIZE + 24) 4
            = [n.toNat % 256, n.toNat / 256 % 256, n.toNat / 65536 % 256,
                n.toNat / 16777216 % 256] := by
          rw [hdat]
          have hemod : (n.emod 4294967296).toNat = n.toNat := by
            have hm : n.emod 4294967296 = n % 4294967296 := rfl
            rw [hm]
            omega
          rw [hemod]
          simp only [le4, List.map_cons, List.map_nil, List.cons.injEq, and_true]
          exact ⟨by omega, by omega, by omega, by omega⟩
        have hu32 := getUint32_of_readBytes _ _ _ _ _ _ hdat2
        have hu32b : getUint32 M (0 + 32 + j * ENTRY_SIZE + 24) = n.toNat := by
          rw [hu32]
          have hlt : n.toNat < 4294967296 := by omega
          omega
        simp only [parseEntriesLoop]
        rw [if_neg (show ¬ ENTRIES_PER_PAGE ≤ j by simp only [ENTRIES_PER_PAGE]; omega)]
        rw [hb0]
        rw [if_neg (show ¬ x = 255 by omega)]
        rw [hb1, hb2, hkeyF, hu32b]
        rw [keyField_wf key hk2 (fun b hbm => (hk3 b hbm).2)]
        rw [hrep]
        simp only [findIdx_zero_append key (fun b hbm => (hk3 b hbm).1)]
        rw [if_neg (show ¬ ((4 : Nat) = 0x01 ∧ x = 0) by
          intro hc
          exact absurd hc.1 (by decide))]
        simp only [hlook]
        rw [if_neg hnm]
        rw [if_neg (show ¬ (4 : Nat) = TYPE_U8 by decide)]
        rw [if_neg (show ¬ (4 : Nat) = TYPE_I8 by decide)]
        rw [if_neg (show ¬ (4 : Nat) = TYPE_U16 by decide)]
        rw [if_neg (show ¬ (4 : Nat) = TYPE_I16 by decide)]
        rw [if_pos (show (4 : Nat) = TYPE_U32 from rfl)]
        rw [if_pos hklen]
        rw [List.take_left]
        rw [show ((n.toNat : Int)) = n from by omega]
  | str s =>
    have hs : ∀ b ∈ s, 0 < b ∧ b < 256 := by
      simp only [wfVal, List.all_eq_true, Bool.and_eq_true, decide_eq_true_eq] at hval
      exact hval
    simp only [createEntry] at he
    cases he
    obtain ⟨hhdr, hkeyF0, hcrc, hnumeric, hstr⟩ := hfull
    have hspanB : j + (1 + ((s ++ [0]).length + (ENTRY_SIZE - 1)) / ENTRY_SIZE) ≤ 125 :=
      hjs
    have hlen32 : (s ++ [0]).length + 32
        ≤ 32 * (1 + ((s ++ [0]).length + (ENTRY_SIZE - 1)) / ENTRY_SIZE) := by
      simp only [ENTRY_SIZE, List.length_append, List.length_cons, List.length_nil]
      omega
    have hsp125 : 1 + ((s ++ [0]).length + (ENTRY_SIZE - 1)) / ENTRY_SIZE ≤ 124 := by
      omega
    have hstr2 := hstr (show ((TYPE_STR : Nat) = TYPE_STR) from rfl) hlen32 (by omega)
    obtain ⟨hstrlen, hchunks⟩ := hstr2
    have hlenlt : (s ++ [0]).length < 65536 := by
      simp only [ENTRY_SIZE] at hlen32 hsp125
      omega
    rw [Nat.mod_eq_of_lt hlenlt] at hstrlen
    have hb := readBytes_four _ _ _ _ _ _ hhdr
    have hb0 : readByte M (0 + 32 + j * ENTRY_SIZE) = x % 256 := hb.1
    rw [Nat.mod_eq_of_lt (show x < 256 by omega)] at hb0
    have hb1 : readByte M (0 + 32 + j * ENTRY_SIZE + 1) = 0x21 := by
      have h0 : readByte M (0 + 32 + j * ENTRY_SIZE + 1) = 0x21 % 256 := hb.2.1
      simpa using h0
    have hb2 : readByte M (0 + 32 + j * ENTRY_SIZE + 2)
        = 1 + ((s ++ [0]).length + (ENTRY_SIZE - 1)) / ENTRY_SIZE := by
      have h0 : readByte M (0 + 32 + j * ENTRY_SIZE + 2)
          = (1 + ((s ++ [0]).length + (ENTRY_SIZE - 1)) / ENTRY_SIZE) % 256 := hb.2.2.1
      rwa [Nat.mod_eq_of_lt (by omega)] at h0
    have hkeyF : readBytes M (0 + 32 + j * ENTRY_SIZE + 8) 16 = keyField key := hkeyF0
    have hstrlen2 : getUint16 M (0 + 32 + j * ENTRY_SIZE + 24) = (s ++ [0]).length :=
      hstrlen
    have hasm : assembleChunks M (0 + 32 + j * ENTRY_SIZE) ((s ++ [0]).length) 1 0
        ((1 + ((s ++ [0]).length + (ENTRY_SIZE - 1)) / ENTRY_SIZE) - 1)
          = readBytes M ((0 + 32 + j * ENTRY_SIZE) + 1 * ENTRY_SIZE)
              ((s ++ [0]).length - 0) :=
      assembleChunks_eq M _ _ _ 1 0 (by omega) (by
        simp only [ENTRY_SIZE] at hlen32 ⊢
        omega)
    have hchunks2 : readBytes M ((0 + 32 + j * ENTRY_SIZE) + 1 * ENTRY_SIZE)
        ((s ++ [0]).length - 0) = List.map (fun b => b % 256) (s ++ [0]) := hchunks
    rw [hchunks2] at hasm
    have hmap : List.map (fun b => b % 256) (s ++ [0]) = s ++ [0] := by
      have hmap2 : (s ++ [0]).map (fun b => b % 256) = (s ++ [0]).map id := by
        apply List.map_congr_left
        intro b hbm
        rcases List.mem_append.mp hbm with hbm | hbm
        · exact Nat.mod_eq_of_lt (hs b hbm).2
        · simp only [List.mem_cons, List.not_mem_nil, or_false] at hbm
          subst hbm
          rfl
      rw [hmap2, List.map_id]
    rw [hmap] at hasm
    simp only [parseEntriesLoop]
    rw [if_neg (show ¬ ENTRIES_PER_PAGE ≤ j by simp only [ENTRIES_PER_PAGE]; omega)]
    rw [hb0]
    rw [if_neg (show ¬ x = 255 by omega)]
    rw [hb1, hb2, hkeyF, hstrlen2]
    rw [keyField_wf key hk2 (fun b hbm => (hk3 b hbm).2)]
    rw [hrep]
    simp only [findIdx_zero_append key (fun b hbm => (hk3 b hbm).1)]
    rw [if_neg (show ¬ ((0x21 : Nat) = 0x01 ∧ x = 0) by
      intro hc
      exact absurd hc.1 (by decide))]
    simp only [hlook]
    rw [if_neg hnm]
    rw [if_neg (show ¬ (0x21 : Nat) = TYPE_U8 by decide)]
    rw [if_neg (show ¬ (0x21 : Nat) = TYPE_I8 by decide)]
    rw [if_neg (show ¬ (0x21 : Nat) = TYPE_U16 by decide)]
    rw [if_neg (show ¬ (0x21 : Nat) = TYPE_I16 by decide)]
    rw [if_neg (show ¬ (0x21 : Nat) = TYPE_U32 by decide)]
    rw [if_neg (show ¬ (0x21 : Nat) = TYPE_I32 by decide)]
    rw [if_pos (show (0x21 : Nat) = TYPE_STR from rfl)]
    rw [hasm]
    have hnil : (s ++ [0]).length - (s ++ [0]).length = 0 := by omega
    rw [hnil]
    rw [show List.replicate 0 (0 : Nat) = [] from rfl, List.append_nil]
    simp only [findIdx_zero_append s (fun b hbm => (hs b hbm).1)]
    rw [if_pos hklen]
    rw [List.take_left, List.take_left]

theorem wfKey_spec (k : List Nat) (h : wfKey k = true) :
    ¬ k = [] ∧ k.length ≤ 15 ∧ ∀ b ∈ k, 0 < b ∧ b < 256 := by
  simp only [wfKey, Bool.and_eq_true, Bool.not_eq_true', List.all_eq_true,
    decide_eq_true_eq] at h
  obtain ⟨⟨hne, hlen⟩, hall⟩ := h
  refine ⟨?_, hlen, ?_⟩
  · intro hc
    rw [hc] at hne
    simp at hne
  · intro b hb
    exact hall b hb

/-- Past the last written slot the walk only sees erased bytes and
returns its state unchanged. -/
theorem parse_tail (M : Mem) :
    ∀ (fuel i : Nat) (st : ParseState),
      (∀ j2, i ≤ j2 → j2 ≤ 125 → readByte M (slotOff 0 j2) = 255) →
      126 ≤ fuel + i →
      parseEntriesLoop M 0 fuel i st = st := by
  intro fuel
  induction fuel with
  | zero => intro i st hE hf; rfl
  | succ fuel ih =>
    intro i st hE hf
    by_cases hi : ENTRIES_PER_PAGE ≤ i
    · simp only [parseEntriesLoop]
      rw [if_pos hi]
    · simp only [parseEntriesLoop]
      rw [if_neg hi]
      simp only [ENTRIES_PER_PAGE] at hi
      have hb : readByte M (0 + 32 + i * ENTRY_SIZE) = 255 := hE i (le_refl i) (by omega)
      rw [hb]
      rw [if_pos rfl]
      exact ih (i + 1) st (fun j2 hj2a hj2b => hE j2 (by omega) hj2b) (by omega)

/-- The slot walk over the data entries of one namespace decodes them
back in order, appending each to the namespace cell it belongs to. -/
theorem parse_kv_walk (M : Mem) (numPages x : Nat) (nm : List Nat)
    (hx1 : 1 ≤ x) (hx2 : x ≤ 254) (hnm : ¬ nm = []) :
    ∀ (kvs : List (List Nat × NVSValue)) (i : Nat) (psK : List (Nat × Nat × Entry))
      (i2 : Nat) (d : PData) (acc : List (List Nat × NVSValue))
      (stN : List (Nat × List Nat)) (fuel : Nat),
      layoutKVs 0 i numPages x kvs = .ok (psK, 0, i2) →
      (∀ pe ∈ psK, SlotSealed M pe.1 pe.2.1 pe.2.2) →
      1 ≤ i →
      lookupAssocNat stN x = some nm →
      (kvs.all (fun q => wfKey q.1 && wfVal q.2)) = true →
      (∀ q ∈ kvs, ¬ q.1 ∈ acc.map Prod.fst) →
      (kvs.map Prod.fst).Nodup →
      (∀ p ∈ d, ¬ p.1 = nm) →
      parseEntriesLoop M 0 (fuel + kvs.length) i ⟨stN, d ++ [(nm, acc)]⟩
        = parseEntriesLoop M 0 fuel i2 ⟨stN, d ++ [(nm, acc ++ kvs)]⟩
        ∧ i + kvs.length ≤ i2 := by
  intro kvs
  induction kvs with
  | nil =>
    intro i psK i2 d acc stN fuel hlay hseal h1 hlook hwf hfresh hnd hdns
    simp only [layoutKVs] at hlay
    cases hlay
    simp
  | cons kv rest ih =>
    intro i psK i2 d acc stN fuel hlay hseal h1 hlook hwf hfresh hnd hdns
    obtain ⟨key, v⟩ := kv
    simp only [layoutKVs] at hlay
    cases hce : createEntry x key v with
    | error e => rw [hce] at hlay; cases hlay
    | ok entry =>
      rw [hce] at hlay
      simp only [] at hlay
      have hspan := createEntry_span_pos _ _ _ _ hce
      by_cases hfull2 : ENTRIES_PER_PAGE ≤ i + entry.span
      · rw [if_pos hfull2] at hlay
        by_cases hnp : numPages ≤ 0 + 1
        · rw [if_pos hnp] at hlay; cases hlay
        · rw [if_neg hnp] at hlay
          cases hrec : layoutKVs (0 + 1) 1 numPages x rest with
          | error e => rw [hrec] at hlay; cases hlay
          | ok t =>
            obtain ⟨psR, pR, iR⟩ := t
            obtain ⟨hcR, hR1, hR2, hRne⟩ :=
              layoutKVs_cursor numPages x rest (0 + 1) 1 psR pR iR hrec
                (le_refl 1) (by omega)
            rw [hrec] at hlay
            cases hlay
            exfalso
            simp only [slotOff, PAGE_SIZE, ENTRY_SIZE] at hcR
            omega
      · rw [if_neg hfull2] at hlay
        simp only [ENTRIES_PER_PAGE] at hfull2
        cases hrec : layoutKVs 0 (i + entry.span) numPages x rest with
        | error e => rw [hrec] at hlay; cases hlay
        | ok t =>
          obtain ⟨psR, pR, iR⟩ := t
          rw [hrec] at hlay
          cases hlay
          simp only [List.all_cons, Bool.and_eq_true] at hwf
          obtain ⟨⟨hwfk, hwfv⟩, hwfrest⟩ := hwf
          obtain ⟨hk1, hk2, hk3⟩ := wfKey_spec key hwfk
          simp only [List.map_cons, List.nodup_cons] at hnd
          have hstep := parse_step_kv M x i key v entry hce
            (hseal (0, i, entry) (List.mem_cons_self _ _)) h1 (by omega) hx1 hx2
            hk1 hk2 hk3 hwfv stN (d ++ [(nm, acc)]) nm hlook hnm (fuel + rest.length)
          have hens : ensureNs (d ++ [(nm, acc)]) nm = d ++ [(nm, acc)] :=
            ensureNs_present _ _ (nm, acc) (by simp) rfl
          have hkey_not : ¬ key ∈ acc.map Prod.fst :=
            hfresh (key, v) (List.mem_cons_self _ _)
          have hsetassoc : setAssocKV acc key v = acc ++ [(key, v)] := by
            apply setAssocKV_append
            intro q hq hqk
            exact hkey_not (hqk ▸ List.mem_map_of_mem Prod.fst hq)
          have hsetkv : setKV (d ++ [(nm, acc)]) nm key v
              = d ++ [(nm, acc ++ [(key, v)])] := by
            rw [setKV_append_last d nm acc key v hdns, hsetassoc]
          rw [hens, hsetkv] at hstep
          have hfa : fuel + ((key, v) :: rest).length = (fuel + rest.length) + 1 := by
            simp only [List.length_cons]
            omega
          rw [hfa, hstep]
          have hih := ih (i + entry.span) psR i2 d (acc ++ [(key, v)]) stN fuel hrec
            (fun pe hpe => hseal pe (List.mem_cons_of_mem _ hpe)) (by omega) hlook
            hwfrest (by
              intro q hq hqm
              simp only [List.map_append, List.mem_append] at hqm
              rcases hqm with hqm | hqm
              · exact hfresh q (List.mem_cons_of_mem _ hq) hqm
              · simp only [List.map_cons, List.map_nil, List.mem_cons,
                  List.not_mem_nil, or_false] at hqm
                exact hnd.1 (hqm ▸ List.mem_map_of_mem Prod.fst hq))
            hnd.2 hdns
          obtain ⟨hihEq, hihLe⟩ := hih
          constructor
          · rw [hihEq]
            simp
          · simp only [List.length_cons]
            omega

/-- The slot walk over the whole namespace sequence reconstructs the
input data, appended to whatever was decoded before. -/
theorem parse_ns_walk (M : Mem) (numPages : Nat) (nsMap : List (List Nat × Nat)) :
    ∀ (data : PData) (i : Nat) (ps : List (Nat × Nat × Entry)) (i2 : Nat)
      (d : PData) (stN : List (Nat × List Nat)) (fuel : Nat),
      layoutNamespaces 0 i numPages nsMap data = .ok (ps, 0, i2) →
      (∀ pe ∈ ps, SlotSealed M pe.1 pe.2.1 pe.2.2) →
      1 ≤ i → i ≤ 125 →
      (data.all (fun p => wfKey p.1 && !p.2.isEmpty
        && decide ((p.2.map Prod.fst).Nodup)
        && p.2.all (fun q => wfKey q.1 && wfVal q.2))) = true →
      (∀ p ∈ data, 1 ≤ lookupNsIndex nsMap p.1 ∧ lookupNsIndex nsMap p.1 ≤ 254) →
      (data.map Prod.fst).Nodup →
      (∀ p ∈ d, ∀ q ∈ data, ¬ p.1 = q.1) →
      ∃ stN2, parseEntriesLoop M 0 (fuel + nsSteps data) i ⟨stN, d⟩
          = parseEntriesLoop M 0 fuel i2 ⟨stN2, d ++ data⟩
        ∧ i + nsSteps data ≤ i2 := by
  intro data
  induction data with
  | nil =>
    intro i ps i2 d stN fuel hlay hseal h1 h2 hwf hix hnd hdisj
    simp only [layoutNamespaces] at hlay
    cases hlay
    exact ⟨stN, by simp [nsSteps], by simp [nsSteps]⟩
  | cons nsp rest ih =>
    intro i ps i2 d stN fuel hlay hseal h1 h2 hwf hix hnd hdisj
    obtain ⟨nm, kvs⟩ := nsp
    simp only [List.all_cons, Bool.and_eq_true] at hwf
    obtain ⟨⟨⟨⟨hwfk, hwfne⟩, hwfnd⟩, hwfkvs⟩, hwfrest⟩ := hwf
    have hkvs_ne : ¬ kvs = [] := by
      intro hc
      rw [hc] at hwfne
      simp at hwfne
    simp only [layoutNamespaces] at hlay
    rw [if_neg hkvs_ne] at hlay
    cases hlayK : layoutKVs 0 (i + 1) numPages (lookupNsIndex nsMap nm) kvs with
    | error e => rw [hlayK] at hlay; cases hlay
    | ok t =>
      obtain ⟨psK, pK, iK⟩ := t
      rw [hlayK] at hlay
      simp only [] at hlay
      cases hlayR : layoutNamespaces pK iK numPages nsMap rest with
      | error e => rw [hlayR] at hlay; cases hlay
      | ok t2 =>
        obtain ⟨psR, pR, iR⟩ := t2
        rw [hlayR] at hlay
        cases hlay
        obtain ⟨hcK, hK1, hK2, hKne⟩ :=
          layoutKVs_cursor numPages _ kvs 0 (i + 1) psK pK iK hlayK
            (by omega) (by omega)
        have hK125 := hKne hkvs_ne
        obtain ⟨hcR, hR1, hR2⟩ :=
          layoutNamespaces_cursor numPages nsMap rest pK iK psR 0 i2 hlayR hK1 hK125
        have hpK0 : pK = 0 := by
          simp only [slotOff, PAGE_SIZE, ENTRY_SIZE] at hcR
          omega
        rw [hpK0] at hlayK hlayR hcK hcR
        have hxb := hix (nm, kvs) (List.mem_cons_self _ _)
        obtain ⟨hk1, hk2, hk3⟩ := wfKey_spec nm hwfk
        have hsealNs := hseal (0, i, ⟨0, 0x01, 1, nm, [lookupNsIndex nsMap nm]⟩)
          (List.mem_cons_self _ _)
        have hstep := parse_step_nsdef M (lookupNsIndex nsMap nm) i nm hsealNs
          h1 h2 hxb.1 hxb.2 hk1 hk2 (fun b hb => hk3 b hb) stN d
          (fuel + nsSteps rest + kvs.length)
        have hfa : fuel + nsSteps ((nm, kvs) :: rest)
            = (fuel + nsSteps rest + kvs.length) + 1 := by
          simp only [nsSteps]
          omega
        rw [hfa, hstep]
        have hens : ensureNs d nm = d ++ [(nm, [])] := by
          apply ensureNs_absent
          intro p hp
          exact hdisj p hp (nm, kvs) (List.mem_cons_self _ _)
        rw [hens]
        have hlook2 : lookupAssocNat (setAssocNat stN (lookupNsIndex nsMap nm) nm)
            (lookupNsIndex nsMap nm) = some nm := lookupAssocNat_set_self _ _ _
        simp only [List.map_cons, List.nodup_cons] at hnd
        obtain ⟨hkvEq, hkvLe⟩ := parse_kv_walk M numPages (lookupNsIndex nsMap nm) nm
          hxb.1 hxb.2 hk1 kvs (i + 1) psK iK d []
          (setAssocNat stN (lookupNsIndex nsMap nm) nm) (fuel + nsSteps rest) hlayK
          (fun pe hpe => hseal pe
            (List.mem_cons_of_mem _ (List.mem_append.mpr (Or.inl hpe))))
          (by omega) hlook2 hwfkvs (by simp) (of_decide_eq_true hwfnd)
          (fun p hp => hdisj p hp (nm, kvs) (List.mem_cons_self _ _))
        rw [hkvEq]
        obtain ⟨stN2, hihEq, hihLe⟩ := ih iK psR i2 (d ++ [(nm, kvs)])
          (setAssocNat stN (lookupNsIndex nsMap nm) nm) fuel hlayR
          (fun pe hpe => hseal pe
            (List.mem_cons_of_mem _ (List.mem_append.mpr (Or.inr hpe))))
          hK1 hK125 hwfrest (fun p hp => hix p (List.mem_cons_of_mem _ hp)) hnd.2
          (by
            intro p hp q hq
            rcases List.mem_append.mp hp with hp2 | hp2
            · exact hdisj p hp2 q (List.mem_cons_of_mem _ hq)
            · simp only [List.mem_cons, List.not_mem_nil, or_false] at hp2
              subst hp2
              intro hc
              have hc2 : nm = q.1 := hc
              rw [hc2] at hnd
              exact hnd.1 (List.mem_map_of_mem Prod.fst hq))
        refine ⟨stN2, ?_, ?_⟩
        · rw [show d ++ [(nm, [] ++ kvs)] = d ++ [(nm, kvs)] by simp]
          rw [hihEq]
          simp
        · simp only [nsSteps]
          omega

/-- The page-0 header of the finalized image carries the ACTIVE state
word, so parse does not skip page 0. -/
theorem finalizePage_state (size : Nat) (m : Mem) (n : Nat) (hsize : 32 ≤ size) :
    getUint32 (finalizePage size m 0 n) 0 = PAGE_STATE_ACTIVE := by
  have h1 : readBytes (finalizePage size m 0 n) 0 4 = [254, 255, 255, 255] := by
    unfold finalizePage
    simp only []
    rw [readBytes_ext _ _ _ _ (by
        intro r hr
        exact readByte_setUint32_outside _ _ _ _ _ (by
          simp only [PAGE_SIZE]
          omega))]
    rw [readBytes_ext _ _ _ _ (by
        intro r hr
        exact readByte_setUint32_outside _ _ _ _ _ (by
          simp only [PAGE_SIZE]
          omega))]
    rw [readBytes_ext _ _ _ _ (by
        intro r hr
        exact readByte_setUint32_outside _ _ _ _ _ (by
          simp only [PAGE_SIZE]
          omega))]
    have h2 := readBytes_setUint32 size m (0 * PAGE_SIZE + 0) PAGE_STATE_ACTIVE (by
      simp only [PAGE_SIZE]
      omega)
    have h3 : readBytes (setUint32 size m (0 * PAGE_SIZE + 0) PAGE_STATE_ACTIVE) 0 4
        = le4 PAGE_STATE_ACTIVE := h2
    rw [h3]
    rfl
  have h4 := getUint32_of_readBytes _ _ _ _ _ _ h1
  rw [h4]
  rfl

/-- parse skips every fully erased page. -/
theorem foldl_parsePage_skip (M : Mem)
    (hE : ∀ o, 4096 ≤ o → readByte M o = 255) :
    ∀ (l : List Nat) (st : ParseState), (∀ y ∈ l, 1 ≤ y) →
      List.foldl (parsePage M) st l = st := by
  intro l
  induction l with
  | nil => intro st h; rfl
  | cons a l ih =>
    intro st h
    have ha : 1 ≤ a := h a (List.mem_cons_self _ _)
    have hskip : parsePage M st a = st := by
      unfold parsePage
      simp only []
      have hstate : getUint32 M (a * PAGE_SIZE) = PAGE_STATE_EMPTY := by
        unfold getUint32
        rw [hE (a * PAGE_SIZE) (by simp only [PAGE_SIZE]; omega),
          hE (a * PAGE_SIZE + 1) (by simp only [PAGE_SIZE]; omega),
          hE (a * PAGE_SIZE + 2) (by simp only [PAGE_SIZE]; omega),
          hE (a * PAGE_SIZE + 3) (by simp only [PAGE_SIZE]; omega)]
        rfl
      rw [hstate]
      rw [if_pos (Or.inl rfl)]
    rw [List.foldl_cons, hskip]
    exact ih st (fun y hy => h y (List.mem_cons_of_mem _ hy))

/-- C1 amended: on the restricted domain (well-formed keys, names and
values, all namespaces non-empty, no namespace named after an
Object.prototype member and no key named after the proto accessor,
so the plain-object reads and writes of the decoder behave as own
properties, and everything fitting on page 0) the decoder inverts
the encoder. -/
theorem c1_round_trip_restricted (data : PData) (partitionSize : Nat) (img : Image)
    (hpsize : PAGE_SIZE ≤ partitionSize)
    (hwf : wfData data = true)
    (_hjs : data.all (fun p => decide (¬ p.1 ∈ protoNames)
      && p.2.all (fun q => decide (¬ q.1 = protoName))) = true)
    (hfit : (layoutEnd data partitionSize).1 = 0)
    (hok : generate data partitionSize = .ok img) :
    parse img = data := by
  simp only [wfData, Bool.and_eq_true, decide_eq_true_eq] at hwf
  obtain ⟨⟨hnd, hlen254⟩, hall⟩ := hwf
  have hne : ∀ p ∈ data, ¬ p.2 = [] := by
    intro p hp hc
    have hq := List.all_eq_true.mp hall p hp
    simp only [Bool.and_eq_true] at hq
    have hq2 := hq.1.1.2
    rw [hc] at hq2
    simp at hq2
  have hnonempty : nonemptyNS data = data := nonemptyNS_self data hne
  have hix : ∀ p ∈ data, 1 ≤ lookupNsIndex (buildNamespaceMap data) p.1
      ∧ lookupNsIndex (buildNamespaceMap data) p.1 ≤ 254 := by
    intro p hp
    obtain ⟨k, hk, hgetk⟩ := List.getElem_of_mem hp
    have hkq : (nonemptyNS data)[k]? = some p := by
      rw [hnonempty, List.getElem?_eq_getElem hk, hgetk]
    have hlookup := lookupNsIndex_aux data 0 k p hnd hkq
    have hbm : buildNamespaceMap data = buildNamespaceMapAux data 0 := rfl
    constructor
    · rw [hbm, hlookup]
      omega
    · rw [hbm, hlookup]
      omega
  unfold generate at hok
  simp only [] at hok
  have hN : (partitionSize / PAGE_SIZE) * PAGE_SIZE ≤ partitionSize :=
    Nat.div_mul_le_self _ _
  have hnp0 : 0 < partitionSize / PAGE_SIZE :=
    Nat.div_pos hpsize (by simp [PAGE_SIZE])
  cases hw : writeNamespaces partitionSize
      (writeByte partitionSize (writeByte partitionSize [] 32 170) 33 170) 0 1
      (partitionSize / PAGE_SIZE) (buildNamespaceMap data) data with
  | error e => rw [hw] at hok; cases hok
  | ok t =>
    obtain ⟨m2, p2, i2⟩ := t
    rw [hw] at hok
    simp only [] at hok
    obtain ⟨ps, hlay, hple, hp2, hi21, hi22, hcur, hpres, hseal, hpw⟩ :=
      writeNamespaces_main partitionSize (partitionSize / PAGE_SIZE)
        (buildNamespaceMap data) hN data _ 0 1 m2 p2 i2 hw hnp0 (le_refl 1) (by omega)
    have hp20 : p2 = 0 := by
      unfold layoutEnd at hfit
      simp only [hlay] at hfit
      exact hfit
    subst hp20
    rw [if_pos (show 0 < i2 by omega)] at hok
    cases hok
    have hsealM : ∀ pe ∈ ps, SlotSealed (finalizePage partitionSize m2 0 i2)
        pe.1 pe.2.1 pe.2.2 := by
      intro pe hpe
      obtain ⟨hb1, hb2, hb3, hb4, hb5, hb6, hb7⟩ := hseal pe hpe
      refine slotSealed_mono _ _ _ _ _ ?_ ?_ hb7
      · intro r hr
        refine readByte_finalizePage_outside _ _ _ _ _ (Or.inr ?_)
        simp only [slotOff, PAGE_SIZE, ENTRY_SIZE] at hb4 ⊢
        omega
      · intro ht hlb hjs r hr
        refine readByte_finalizePage_outside _ _ _ _ _ (Or.inr ?_)
        simp only [slotOff, PAGE_SIZE, ENTRY_SIZE] at hb4 ⊢
        omega
    have hHigh : ∀ o, slotOff 0 i2 ≤ o →
        readByte (finalizePage partitionSize m2 0 i2) o = 255 := by
      intro o ho
      have h64 : 64 ≤ o := le_trans (by
        simp only [slotOff, PAGE_SIZE, ENTRY_SIZE]
        omega) ho
      rw [readByte_finalizePage_outside _ _ _ _ _ (Or.inr (by
        simp only [PAGE_SIZE]
        omega))]
      rw [writeNamespaces_high partitionSize (partitionSize / PAGE_SIZE)
        (buildNamespaceMap data) hN data _ 0 1 m2 i2 hw hnp0 (le_refl 1)
        (by omega) o ho]
      rw [readByte_writeByte_ne _ _ _ _ _ (by omega)]
      rw [readByte_writeByte_ne _ _ _ _ _ (by omega)]
      rfl
    obtain ⟨stN2, hihEq, hihLe⟩ := parse_ns_walk (finalizePage partitionSize m2 0 i2)
      (partitionSize / PAGE_SIZE) (buildNamespaceMap data) data 1 ps i2 [] []
      (125 - nsSteps data) hlay hsealM (le_refl 1) (by omega) hall hix hnd
      (by intro p hp; cases hp)
    have hsteps : nsSteps data ≤ 124 := by omega
    have htail : ∀ j2, i2 ≤ j2 → j2 ≤ 125 →
        readByte (finalizePage partitionSize m2 0 i2) (slotOff 0 j2) = 255 := by
      intro j2 hj2a hj2b
      refine hHigh _ ?_
      simp only [slotOff, PAGE_SIZE, ENTRY_SIZE]
      omega
    have hmain : parseEntriesLoop (finalizePage partitionSize m2 0 i2) 0 125 1
        ⟨[], []⟩ = ⟨stN2, data⟩ := by
      rw [show (125 : Nat) = (125 - nsSteps data) + nsSteps data from by omega]
      rw [hihEq]
      rw [parse_tail _ _ _ _ htail (by omega)]
      simp
    show (List.foldl (parsePage (finalizePage partitionSize m2 0 i2)) ⟨[], []⟩
      (List.range (partitionSize / PAGE_SIZE))).data = data
    have hpage0 : parsePage (finalizePage partitionSize m2 0 i2) ⟨[], []⟩ 0
        = ⟨stN2, data⟩ := by
      unfold parsePage
      simp only []
      have hstate : getUint32 (finalizePage partitionSize m2 0 i2) (0 * PAGE_SIZE)
          = PAGE_STATE_ACTIVE :=
        finalizePage_state partitionSize m2 i2 (by
          simp only [PAGE_SIZE] at hpsize ⊢
          omega)
      rw [hstate]
      rw [if_neg (show ¬ (PAGE_STATE_ACTIVE = PAGE_STATE_EMPTY
          ∨ PAGE_STATE_ACTIVE = 0) by decide)]
      have hconv : parseEntriesLoop (finalizePage partitionSize m2 0 i2)
          (0 * PAGE_SIZE) 125 1 ⟨[], []⟩
            = parseEntriesLoop (finalizePage partitionSize m2 0 i2) 0 125 1
                ⟨[], []⟩ := by
        congr 1
      rw [hconv, hmain]
    rw [show partitionSize / PAGE_SIZE = (partitionSize / PAGE_SIZE - 1) + 1
      from by omega]
    rw [List.range_succ_eq_map]
    rw [List.foldl_cons]
    rw [hpage0]
    rw [foldl_parsePage_skip _ (fun o ho => hHigh o (by
        simp only [slotOff, PAGE_SIZE, ENTRY_SIZE]
        omega)) _ _ (by
      intro y hy
      simp only [List.mem_map] at hy
      obtain ⟨z, hz, hzy⟩ := hy
      omega)]

set_option maxRecDepth 10000 in
/-- Concrete round-trip instance: one namespace with an integer and a
string value, on a 24576-byte partition. -/
theorem c1_witness :
    (PAGE_SIZE ≤ 24576 ∧ wfData c1Data = true ∧
      c1Data.all (fun p => decide (¬ p.1 ∈ protoNames)
        && p.2.all (fun q => decide (¬ q.1 = protoName))) = true ∧
      (layoutEnd c1Data 24576).1 = 0 ∧
      generate c1Data 24576 = .ok (genImg c1Data 24576)) ∧
    parse (genImg c1Data 24576) = c1Data :=
  ⟨⟨by decide, by decide, by decide, by decide, by decide⟩,
    c1_round_trip_restricted c1Data 24576 (genImg c1Data 24576)
      (by decide) (by decide) (by decide) (by decide) (by decide)⟩

end NVS
